import Mathlib

/-!
Verification of the DFA minimizer (`dfa_logic.py`): a shallow embedding of the
`DFA` class (validation, unreachable-state pruning, serialization) and the
`DFAMinimizer.minimize` table-filling algorithm, together with theorems about
the claims of the specification.

Modelling conventions:
* Python `str` is `String`; Python sets of strings are `List String` whose
  order stands for the set's (arbitrary) iteration order, with membership as
  the set semantics.  Python dicts keyed by strings are association lists,
  looked up by `assoc`.
* Python code that can raise (`KeyError` on a missing dict key) is embedded
  with `Option`: `none` is an uncaught exception.
* The `while changed` loop of the table-filling closure is embedded with
  explicit fuel `n*n+1`; the termination theorems show this fuel always
  suffices (each pass that reports a change marks at least one new pair).
-/

namespace DFAmin

/-- Association-list lookup: the embedding of a Python dict lookup
(`m[k]` / `m.get(k)`). -/
def assoc {α : Type} : List (String × α) → String → Option α
  | [], _ => none
  | (k, v) :: rest, s => if k = s then some v else assoc rest s

/-- Inner transition dict of one state: symbol → target. -/
abbrev SMap := List (String × String)

/-- Transition dict: state → (symbol → target). -/
abbrev TMap := List (String × SMap)

/-- The `DFA` class of `dfa_logic.py`.  The list fields model Python sets
(the list order is the set's iteration order). -/
structure DFA where
  states : List String
  alphabet : List String
  transitions : TMap
  start_state : String
  final_states : List String
  deriving DecidableEq, Repr

/-- A single-quote character, used to build the f-string messages of
`is_valid` without apostrophe literals. -/
def sq : String := String.singleton (Char.ofNat 39)

def msgEmptyStates : String := "States set cannot be empty."

def msgStartNotIn (s : String) : String :=
  "Start state " ++ sq ++ s ++ sq ++ " is not in the set of states."

def msgFinalNotSub : String := "All final states must be in the set of states."

def msgMissingState (s : String) : String :=
  "Missing transitions for state " ++ sq ++ s ++ sq ++ "."

def msgMissingSym (s sym : String) : String :=
  "Missing transition for state " ++ sq ++ s ++ sq ++ " on symbol " ++ sq ++ sym ++ sq ++ "."

def msgBadTarget (s sym t : String) : String :=
  "Transition from " ++ sq ++ s ++ sq ++ " on " ++ sq ++ sym ++ sq ++
    " leads to an invalid state " ++ sq ++ t ++ sq ++ "."

def msgOk : String := "DFA is valid."

/-- The inner loop of `is_valid` over `self.alphabet` for one state, given
that state's transition dict `m`. -/
def checkSymbols (d : DFA) (s : String) (m : SMap) : List String → Option String
  | [] => none
  | sym :: rest =>
    match assoc m sym with
    | none => some (msgMissingSym s sym)
    | some t => if t ∈ d.states then checkSymbols d s m rest else some (msgBadTarget s sym t)

/-- The outer loop of `is_valid` over `self.states`. -/
def checkStates (d : DFA) : List String → Option String
  | [] => none
  | s :: rest =>
    match assoc d.transitions s with
    | none => some (msgMissingState s)
    | some m =>
      match checkSymbols d s m d.alphabet with
      | some e => some e
      | none => checkStates d rest

/-- `DFA.is_valid`: the sequence of checks of the source, returning the first
failure message encountered in the iteration order of the `states` and
`alphabet` fields. -/
def is_valid (d : DFA) : Bool × String :=
  if d.states.isEmpty then (false, msgEmptyStates)
  else if d.start_state ∈ d.states then
    if d.final_states.all (fun t => decide (t ∈ d.states)) then
      match checkStates d d.states with
      | some e => (false, e)
      | none => (true, msgOk)
    else (false, msgFinalNotSub)
  else (false, msgStartNotIn d.start_state)

/-- One symbol step of the BFS inner loop of `remove_unreachable_states`:
`next_state = transitions[current].get(symbol)`, then
`if next_state and next_state not in reachable_states`.  The Python truthiness
test makes the empty string a skipped successor. -/
def visitFold (m : SMap) : List String → List String → List String → List String × List String
  | [], reached, acc => (reached, acc)
  | sym :: rest, reached, acc =>
    match assoc m sym with
    | none => visitFold m rest reached acc
    | some t =>
      if t ≠ "" ∧ t ∉ reached then visitFold m rest (reached ++ [t]) (acc ++ [t])
      else visitFold m rest reached acc

/-- Processing one dequeued state of the BFS (`if current_state in self.transitions`
guard, then the symbol loop).  Returns the grown reached set and the states
appended to the queue. -/
def visit (d : DFA) (cur : String) (reached : List String) : List String × List String :=
  match assoc d.transitions cur with
  | none => (reached, [])
  | some m => visitFold m d.alphabet reached []

/-- The BFS `while queue:` loop, with fuel (the fuel is shown sufficient in
the lemmas below). -/
def bfs (d : DFA) : Nat → List String → List String → List String
  | 0, _, reached => reached
  | _ + 1, [], reached => reached
  | fuel + 1, cur :: rest, reached =>
    let p := visit d cur reached
    bfs d fuel (rest ++ p.2) p.1

/-- All target values appearing in a transition dict. -/
def targetsOf (t : TMap) : List String :=
  t.flatMap (fun e => e.2.map (fun e2 => e2.2))

/-- The finite universe the BFS can ever reach: the start state and every
transition target. -/
def uni (d : DFA) : List String := (d.start_state :: targetsOf d.transitions).dedup

/-- Fuel that always suffices for the BFS loop. -/
def bfsFuel (d : DFA) : Nat := 1 + 2 * (uni d).length

/-- The collected `reachable_states` set of `remove_unreachable_states`. -/
def reachableSet (d : DFA) : List String := bfs d (bfsFuel d) [d.start_state] [d.start_state]

/-- `{s: self.transitions[s] for s in reachable_states}` — `none` is the
`KeyError` Python raises when a collected state has no transition entry. -/
def buildTrans (t : TMap) : List String → Option TMap
  | [] => some []
  | s :: rest =>
    match assoc t s with
    | none => none
    | some m =>
      match buildTrans t rest with
      | none => none
      | some r => some ((s, m) :: r)

/-- `DFA.remove_unreachable_states`. -/
def remove_unreachable_states (d : DFA) : Option DFA :=
  match buildTrans d.transitions (reachableSet d) with
  | none => none
  | some nt =>
    some ⟨d.states.filter (fun s => s ∈ reachableSet d), d.alphabet, nt, d.start_state,
      d.final_states.filter (fun s => s ∈ reachableSet d)⟩

/-- Code-point comparison of character lists: Python's `<` on strings. -/
def charsLt : List Char → List Char → Bool
  | [], [] => false
  | [], _ :: _ => true
  | _ :: _, [] => false
  | c :: cs, d :: ds =>
    if c.toNat < d.toNat then true
    else if d.toNat < c.toNat then false
    else charsLt cs ds

/-- Python's `<` on strings (code-point lexicographic). -/
def strLt (a b : String) : Bool := charsLt a.data b.data

/-- Insertion into a (strictly) sorted list of strings, for Python `sorted`. -/
def insertSorted (x : String) : List String → List String
  | [] => [x]
  | y :: ys => if strLt x y then x :: y :: ys else y :: insertSorted x ys

/-- `sorted(...)` on a list of strings (code-point lexicographic, as in
Python). -/
def sortStrings : List String → List String
  | [] => []
  | x :: xs => insertSorted x (sortStrings xs)

/-- The dictionary produced by `DFA.to_dict` (states, alphabet and final
states as sorted lists, transitions passed through). -/
structure DFADict where
  states : List String
  alphabet : List String
  transitions : TMap
  start_state : String
  final_states : List String
  deriving DecidableEq, Repr

/-- `DFA.to_dict`. -/
def to_dict (d : DFA) : DFADict :=
  ⟨sortStrings d.states.dedup, sortStrings d.alphabet.dedup, d.transitions,
    d.start_state, sortStrings d.final_states.dedup⟩

/-- `DFA.from_dict` (`set(...)` of the listed fields). -/
def from_dict (dd : DFADict) : DFA :=
  ⟨dd.states.dedup, dd.alphabet.dedup, dd.transitions, dd.start_state, dd.final_states.dedup⟩

/-! ### The minimizer -/

/-- `state_map[s]`: the index of a state in the sorted state list (`none` is
the `KeyError`). -/
def idxOf : List String → String → Option Nat
  | [], _ => none
  | y :: ys, s => if y = s then some 0 else (idxOf ys s).map (· + 1)

/-- The distinguishability table `dist_table`, as a function of the two
indices. -/
abbrev Table := Nat → Nat → Bool

/-- Setting one cell of the table. -/
def setT (T : Table) (i j : Nat) : Table :=
  fun a b => if a = i ∧ b = j then true else T a b

/-- The base-case table of Step 3: `(i, j)` with `i < j < n` is marked iff
exactly one of the two states is final. -/
def baseTable (states finals : List String) : Table := fun i j =>
  decide (i < j) && decide (j < states.length) &&
    (decide (states.getD i "" ∈ finals) != decide (states.getD j "" ∈ finals))

/-- `state_map[dfa.transitions[states[i]][symbol]]`: the index of the
successor of the `i`-th state under `symbol`. -/
def succIdx (d : DFA) (states : List String) (i : Nat) (sym : String) : Option Nat :=
  match states.get? i with
  | none => none
  | some s =>
    match assoc d.transitions s with
    | none => none
    | some m =>
      match assoc m sym with
      | none => none
      | some t => idxOf states t

/-- The `for symbol in dfa.alphabet` loop on one unmarked pair, with the
`break`: `some true` when a symbol forces a mark, `some false` when no symbol
does, `none` on a `KeyError`. -/
def trySyms (d : DFA) (states : List String) (T : Table) (i j : Nat) :
    List String → Option Bool
  | [] => some false
  | sym :: rest =>
    match succIdx d states i sym with
    | none => none
    | some a =>
      match succIdx d states j sym with
      | none => none
      | some b =>
        if min a b ≠ max a b ∧ T (min a b) (max a b) then some true
        else trySyms d states T i j rest

/-- Processing one `(i, j)` pair in a closure pass: skip if already marked,
otherwise mark it (and set `changed`) when some symbol leads to a marked
distinct pair. -/
def processPair (d : DFA) (states : List String) (acc : Table × Bool) (ij : Nat × Nat) :
    Option (Table × Bool) :=
  if acc.1 ij.1 ij.2 then some acc
  else
    match trySyms d states acc.1 ij.1 ij.2 d.alphabet with
    | none => none
    | some true => some (setT acc.1 ij.1 ij.2, true)
    | some false => some acc

/-- The pairs `(i, j)`, `i < j < n`, in the iteration order of the two
`range` loops. -/
def pairList (n : Nat) : List (Nat × Nat) :=
  (List.range n).flatMap (fun i => (List.range' (i + 1) (n - (i + 1))).map (fun j => (i, j)))

/-- Folding `processPair` over a pair list (the two nested `for` loops). -/
def passPairs (d : DFA) (states : List String) :
    List (Nat × Nat) → (Table × Bool) → Option (Table × Bool)
  | [], acc => some acc
  | ij :: rest, acc =>
    match processPair d states acc ij with
    | none => none
    | some next => passPairs d states rest next

/-- One full pass of the closure loop (`changed = False` and the two `for`
loops). -/
def onePass (d : DFA) (states : List String) (T : Table) : Option (Table × Bool) :=
  passPairs d states (pairList states.length) (T, false)

/-- The `while changed:` loop, with fuel. -/
def closure (d : DFA) (states : List String) : Nat → Table → Option Table
  | 0, T => some T
  | fuel + 1, T =>
    match onePass d states T with
    | none => none
    | some r => if r.2 then closure d states fuel r.1 else some r.1

/-- The block grown from the unvisited state of index `i`: the state itself
and every higher-indexed state whose pair with `i` is unmarked
(`for j in range(i+1, num_states): if not dist_table[i][j]`). -/
def blockOf (states : List String) (T : Table) (i : Nat) : List String :=
  states.getD i "" ::
    (((List.range' (i + 1) (states.length - (i + 1))).filter (fun j => ¬ T i j)).filterMap
      states.get?)

/-- One step of the Step-5 grouping loop over `i`: skip a visited state,
otherwise form the block of every higher-indexed state whose pair with `i`
is unmarked. -/
def bpStep (states : List String) (T : Table) (acc : List String × List (List String))
    (i : Nat) : List String × List (List String) :=
  match states.get? i with
  | none => acc
  | some si =>
    if si ∈ acc.1 then acc
    else (acc.1 ++ blockOf states T i, acc.2 ++ [blockOf states T i])

/-- Step 5: the partition list, in formation order. -/
def buildPartitions (states : List String) (T : Table) : List (List String) :=
  ((List.range states.length).foldl (bpStep states T) ([], [])).2

/-- `partition_map[s]` as an index: the dict comprehension lets a later
partition overwrite an earlier one, so this is the index of the last
partition containing `s`. -/
def lastIdxMem (s : String) : List (List String) → Option Nat
  | [] => none
  | p :: ps =>
    match lastIdxMem s ps with
    | some k => some (k + 1)
    | none => if s ∈ p then some 0 else none

/-- `new_state_names`: the fresh name of the `i`-th partition. -/
def qName (i : Nat) : String := "q" ++ toString i

/-- The inner loop of Step 6 over the alphabet for one block representative. -/
def newTransSyms (d : DFA) (P : List (List String)) (rep : String) :
    List String → Option SMap
  | [] => some []
  | sym :: rest =>
    match assoc d.transitions rep with
    | none => none
    | some m =>
      match assoc m sym with
      | none => none
      | some t =>
        match lastIdxMem t P with
        | none => none
        | some k =>
          match newTransSyms d P rep rest with
          | none => none
          | some r => some ((sym, qName k) :: r)

/-- The outer loop of Step 6 over the partitions (the representative is the
block's first listed member). -/
def newTransBlocks (d : DFA) (P : List (List String)) :
    List (List String) → Nat → Option TMap
  | [], _ => some []
  | p :: ps, i =>
    match p.head? with
    | none => none
    | some rep =>
      match newTransSyms d P rep d.alphabet with
      | none => none
      | some syms =>
        match newTransBlocks d P ps (i + 1) with
        | none => none
        | some r => some ((qName i, syms) :: r)

/-- The Step-6 reconstruction on a pruned automaton `dfa`, its sorted state
list and the final table. -/
def rebuild (dfa : DFA) (states : List String) (T : Table) : Option DFA :=
  match lastIdxMem dfa.start_state (buildPartitions states T) with
  | none => none
  | some startIdx =>
    match newTransBlocks dfa (buildPartitions states T) (buildPartitions states T) 0 with
    | none => none
    | some nt =>
      some ⟨((List.range (buildPartitions states T).length).map qName).dedup, dfa.alphabet, nt,
        qName startIdx,
        (((List.range (buildPartitions states T).length).filter
            (fun i => ((buildPartitions states T).getD i []).any
              (fun s => decide (s ∈ dfa.final_states)))).map qName).dedup⟩

/-- Steps 2–6 of `minimize` on the pruned automaton. -/
def minimizeCore (dfa : DFA) : Option DFA :=
  match closure dfa (sortStrings dfa.states.dedup)
      ((sortStrings dfa.states.dedup).length * (sortStrings dfa.states.dedup).length + 1)
      (baseTable (sortStrings dfa.states.dedup) dfa.final_states) with
  | none => none
  | some T => rebuild dfa (sortStrings dfa.states.dedup) T

/-- `DFAMinimizer.minimize`.  `none` is an uncaught `KeyError`. -/
def minimize (d : DFA) : Option DFA :=
  match remove_unreachable_states d with
  | none => none
  | some dfa => minimizeCore dfa

/-! ### Semantic notions used by the claims -/

/-- Running the transition function along a word (`none` when a transition is
missing). -/
def runDFA (d : DFA) : String → List String → Option String
  | s, [] => some s
  | s, sym :: rest =>
    match assoc d.transitions s with
    | none => none
    | some m =>
      match assoc m sym with
      | none => none
      | some t => runDFA d t rest

/-- Reachability from the start state by some string over the alphabet. -/
def ReachSpec (d : DFA) (s : String) : Prop :=
  ∃ w : List String, (∀ c ∈ w, c ∈ d.alphabet) ∧ runDFA d d.start_state w = some s

/-- The states the skipping BFS of the source can collect: the start state,
closed under transitions to non-empty-named targets. -/
inductive ReachSkip (d : DFA) : String → Prop
  | start : ReachSkip d d.start_state
  | step : ∀ s sym m t, ReachSkip d s → sym ∈ d.alphabet →
      assoc d.transitions s = some m → assoc m sym = some t → t ≠ "" → ReachSkip d t

/-- The semantic content of a passing `is_valid`: non-empty state set, start
and final states inside it, and a total transition function into it. -/
def ValidProp (d : DFA) : Prop :=
  d.states ≠ [] ∧ d.start_state ∈ d.states ∧ (∀ t ∈ d.final_states, t ∈ d.states) ∧
    ∀ s ∈ d.states, ∃ m, assoc d.transitions s = some m ∧
      ∀ sym ∈ d.alphabet, ∃ t, assoc m sym = some t ∧ t ∈ d.states

/-! ### Concrete automata used by the claims -/

/-- The spec's concrete scenario: states `A`–`H` over `{0,1}`, start `A`,
final `{C}`. -/
def exA : DFA :=
  ⟨["A", "B", "C", "D", "E", "F", "G", "H"], ["0", "1"],
   [("A", [("0", "B"), ("1", "F")]),
    ("B", [("0", "G"), ("1", "C")]),
    ("C", [("0", "A"), ("1", "C")]),
    ("D", [("0", "C"), ("1", "G")]),
    ("E", [("0", "H"), ("1", "F")]),
    ("F", [("0", "C"), ("1", "G")]),
    ("G", [("0", "G"), ("1", "E")]),
    ("H", [("0", "G"), ("1", "C")])],
   "A", ["C"]⟩

/-- A validated automaton with a state named by the empty string, reachable
from `s` by the symbol `a`. -/
def e1 : DFA := ⟨["s", ""], ["a"], [("s", [("a", "")]), ("", [("a", "")])], "s", []⟩

/-- What `remove_unreachable_states` returns on `e1`: the empty-string state
is dropped even though it is reachable. -/
def e1p : DFA := ⟨["s"], ["a"], [("s", [("a", "")])], "s", []⟩

/-- Two states, both with missing transitions, iterated in one order... -/
def e4a : DFA := ⟨["a", "b"], [], [], "a", []⟩

/-- ...and the same set of states iterated in the other order. -/
def e4b : DFA := ⟨["b", "a"], [], [], "a", []⟩

/-- An automaton whose only violation is a final state outside the state
set. -/
def e4c : DFA := ⟨["s"], [], [("s", [])], "s", ["t"]⟩

/-- A small valid automaton used by witnesses. -/
def exW : DFA := ⟨["p", "r"], ["a"], [("p", [("a", "r")]), ("r", [("a", "r")])], "p", ["r"]⟩

/-! ### Basic lemmas on the list helpers -/

theorem mem_insertSorted {y x : String} {l : List String} :
    y ∈ insertSorted x l ↔ y = x ∨ y ∈ l := by
  induction l with
  | nil => simp [insertSorted]
  | cons z zs ih =>
    cases hxz : strLt x z with
    | true => simp [insertSorted, hxz]
    | false =>
      simp only [insertSorted, hxz, Bool.false_eq_true, if_false, List.mem_cons, ih]
      tauto

theorem mem_sortStrings {y : String} {l : List String} :
    y ∈ sortStrings l ↔ y ∈ l := by
  induction l with
  | nil => simp [sortStrings]
  | cons x xs ih => simp [sortStrings, mem_insertSorted, ih]

theorem nodup_insertSorted {x : String} {l : List String} (hx : x ∉ l) (hl : l.Nodup) :
    (insertSorted x l).Nodup := by
  induction l with
  | nil => simp [insertSorted]
  | cons z zs ih =>
    rcases List.nodup_cons.mp hl with ⟨hz, hzs⟩
    cases hxz : strLt x z with
    | true =>
      simp only [insertSorted, hxz, if_true]
      exact List.nodup_cons.mpr ⟨hx, hl⟩
    | false =>
      simp only [insertSorted, hxz, Bool.false_eq_true, if_false]
      refine List.nodup_cons.mpr ⟨?_, ih (fun hm => hx (List.mem_cons_of_mem _ hm)) hzs⟩
      intro hmem
      rcases mem_insertSorted.mp hmem with h1 | h1
      · exact hx (h1 ▸ List.mem_cons_self _ _)
      · exact hz h1

theorem nodup_sortStrings {l : List String} (hl : l.Nodup) : (sortStrings l).Nodup := by
  induction l with
  | nil => simp [sortStrings]
  | cons x xs ih =>
    rcases List.nodup_cons.mp hl with ⟨hx, hxs⟩
    exact nodup_insertSorted (fun hm => hx (mem_sortStrings.mp hm)) (ih hxs)

theorem length_insertSorted (x : String) (l : List String) :
    (insertSorted x l).length = l.length + 1 := by
  induction l with
  | nil => simp [insertSorted]
  | cons z zs ih =>
    cases hxz : strLt x z with
    | true => simp [insertSorted, hxz]
    | false => simp [insertSorted, hxz, ih]

theorem length_sortStrings (l : List String) : (sortStrings l).length = l.length := by
  induction l with
  | nil => simp [sortStrings]
  | cons x xs ih => simp [sortStrings, length_insertSorted, ih]

theorem toFinset_sortStrings_dedup (l : List String) :
    (sortStrings l.dedup).toFinset = l.toFinset := by
  ext y
  simp [List.mem_toFinset, mem_sortStrings, List.mem_dedup]

theorem dedup_sortStrings_dedup (l : List String) :
    (sortStrings l.dedup).dedup = sortStrings l.dedup :=
  List.dedup_eq_self.mpr (nodup_sortStrings l.nodup_dedup)

/-! ### Claims settled by direct computation -/

set_option maxRecDepth 40000

/-- **C1** (code bug): the automaton `e1` passes validation, yet `minimize`
raises an uncaught `KeyError` on it (modelled as `none`): the BFS of
`remove_unreachable_states` skips the falsy empty-string successor, so the
state named `""` is pruned while remaining a transition target, and the
Step-6 `partition_map[...]` lookup fails.  No minimized automaton is
returned, so no automaton accepting the original language is returned. -/
theorem claim1_minimize_crashes_on_valid_input :
    (is_valid e1).1 = true ∧ minimize e1 = none := by decide

/-- **C7**: on the spec's concrete automaton, pruning returns an automaton
with exactly 7 states (`D` removed) and minimization returns one with
exactly 5 states. -/
theorem claim7_concrete_scenario :
    (remove_unreachable_states exA).map (fun d => d.states.dedup.length) = some 7 ∧
    ((remove_unreachable_states exA).map (fun d => decide ("D" ∈ d.states)) = some false) ∧
    (minimize exA).map (fun d => d.states.dedup.length) = some 5 := by decide

/-- **C8**: `from_dict (to_dict a)` is structurally equal to `a`: the same
state set, alphabet set, transition mapping, start state and final-state
set, whatever order the original sets were listed in. -/
theorem claim8_roundtrip (d : DFA) (h : (is_valid d).1 = true) :
    (from_dict (to_dict d)).states.toFinset = d.states.toFinset ∧
    (from_dict (to_dict d)).alphabet.toFinset = d.alphabet.toFinset ∧
    (from_dict (to_dict d)).transitions = d.transitions ∧
    (from_dict (to_dict d)).start_state = d.start_state ∧
    (from_dict (to_dict d)).final_states.toFinset = d.final_states.toFinset := by
  refine ⟨?_, ?_, rfl, rfl, ?_⟩ <;>
    simp [from_dict, to_dict, dedup_sortStrings_dedup, toFinset_sortStrings_dedup]

/-- Witness for C8 at the concrete valid automaton `exW`. -/
theorem claim8_roundtrip_witness :
    (from_dict (to_dict exW)).states.toFinset = exW.states.toFinset ∧
    (from_dict (to_dict exW)).alphabet.toFinset = exW.alphabet.toFinset ∧
    (from_dict (to_dict exW)).transitions = exW.transitions ∧
    (from_dict (to_dict exW)).start_state = exW.start_state ∧
    (from_dict (to_dict exW)).final_states.toFinset = exW.final_states.toFinset :=
  claim8_roundtrip exW (by decide)

/-! ### The semantic content of `is_valid` -/

theorem checkSymbols_eq_none_iff (d : DFA) (s : String) (m : SMap) (syms : List String) :
    checkSymbols d s m syms = none ↔
      ∀ sym ∈ syms, ∃ t, assoc m sym = some t ∧ t ∈ d.states := by
  induction syms with
  | nil => simp [checkSymbols]
  | cons sym rest ih =>
    cases hm : assoc m sym with
    | none => simp [checkSymbols, hm]
    | some t =>
      by_cases ht : t ∈ d.states
      · simp only [checkSymbols, hm, ht, if_true, ih]
        constructor
        · intro h c hc
          rcases List.mem_cons.mp hc with rfl | hc'
          · exact ⟨t, hm, ht⟩
          · exact h c hc'
        · intro h c hc
          exact h c (List.mem_cons_of_mem _ hc)
      · simp only [checkSymbols, hm, ht, if_false]
        constructor
        · intro h
          exact absurd h (by simp)
        · intro h
          rcases h sym (List.mem_cons_self _ _) with ⟨t', ht', hmem⟩
          rw [hm] at ht'
          cases ht'
          exact absurd hmem ht

theorem checkStates_eq_none_iff (d : DFA) (l : List String) :
    checkStates d l = none ↔
      ∀ s ∈ l, ∃ m, assoc d.transitions s = some m ∧ checkSymbols d s m d.alphabet = none := by
  induction l with
  | nil => simp [checkStates]
  | cons s rest ih =>
    cases hm : assoc d.transitions s with
    | none => simp [checkStates, hm]
    | some m =>
      cases hc : checkSymbols d s m d.alphabet with
      | some e =>
        simp only [checkStates, hm, hc]
        constructor
        · intro h
          exact absurd h (by simp)
        · intro h
          rcases h s (List.mem_cons_self _ _) with ⟨m', hm', hc'⟩
          rw [hm] at hm'
          cases hm'
          rw [hc] at hc'
          cases hc'
      | none =>
        simp only [checkStates, hm, hc, ih]
        constructor
        · intro h c hcm
          rcases List.mem_cons.mp hcm with rfl | hcm'
          · exact ⟨m, hm, hc⟩
          · exact h c hcm'
        · intro h c hcm
          exact h c (List.mem_cons_of_mem _ hcm)

/-- `is_valid` returns `True` exactly when the semantic validity invariants
hold. -/
theorem is_valid_true_iff (d : DFA) : (is_valid d).1 = true ↔ ValidProp d := by
  cases hne : d.states.isEmpty with
  | true =>
    have hnil : d.states = [] := List.isEmpty_iff.mp (by rw [hne])
    have hval : is_valid d = (false, msgEmptyStates) := by
      unfold is_valid
      rw [if_pos (by rw [hne])]
    rw [hval]
    simp [ValidProp, hnil]
  | false =>
    by_cases hst : d.start_state ∈ d.states
    · cases hfin : d.final_states.all (fun t => decide (t ∈ d.states)) with
      | false =>
        have hval : is_valid d = (false, msgFinalNotSub) := by
          unfold is_valid
          rw [if_neg (by simp [hne]), if_pos hst, if_neg (by simp [hfin])]
        have hnotsub : ¬ ∀ t ∈ d.final_states, t ∈ d.states := by
          intro hall
          have hcontr : d.final_states.all (fun t => decide (t ∈ d.states)) = true :=
            List.all_eq_true.mpr (fun t ht => by simpa using hall t ht)
          rw [hfin] at hcontr
          cases hcontr
        rw [hval]
        simp [ValidProp, hnotsub]
      | true =>
        cases hcs : checkStates d d.states with
        | some e =>
          have hval : is_valid d = (false, e) := by
            unfold is_valid
            rw [if_neg (by simp [hne]), if_pos hst, if_pos hfin, hcs]
          have hnot : ¬ ∀ s ∈ d.states, ∃ m, assoc d.transitions s = some m ∧
              ∀ sym ∈ d.alphabet, ∃ t, assoc m sym = some t ∧ t ∈ d.states := by
            intro hall
            have hnone : checkStates d d.states = none := by
              rw [checkStates_eq_none_iff]
              intro s hs
              rcases hall s hs with ⟨m, hm, hsy⟩
              exact ⟨m, hm, (checkSymbols_eq_none_iff d s m d.alphabet).mpr hsy⟩
            rw [hcs] at hnone
            cases hnone
          rw [hval]
          simp [ValidProp, hnot]
        | none =>
          have hval : is_valid d = (true, msgOk) := by
            unfold is_valid
            rw [if_neg (by simp [hne]), if_pos hst, if_pos hfin, hcs]
          have h1 : d.states ≠ [] := List.isEmpty_eq_false.mp hne
          have h2 : ∀ t ∈ d.final_states, t ∈ d.states := by
            rw [List.all_eq_true] at hfin
            intro t ht
            simpa using hfin t ht
          have h3 := (checkStates_eq_none_iff d d.states).mp hcs
          rw [hval]
          constructor
          · intro _
            refine ⟨h1, hst, h2, ?_⟩
            intro s hs
            rcases h3 s hs with ⟨m, hm, hsy⟩
            exact ⟨m, hm, (checkSymbols_eq_none_iff d s m d.alphabet).mp hsy⟩
          · intro _
            rfl
    · have hval : is_valid d = (false, msgStartNotIn d.start_state) := by
        unfold is_valid
        rw [if_neg (by simp [hne]), if_neg hst]
      rw [hval]
      simp [ValidProp, hst]

/-! ### BFS structure lemmas -/

/-- `visitFold` appends the same fresh elements to the reached set and to the
queue accumulator; the fresh elements are non-empty strings, values of the
inner dict, pairwise distinct and new. -/
theorem visitFold_spec (m : SMap) (syms : List String) :
    ∀ reached acc, ∃ new,
      visitFold m syms reached acc = (reached ++ new, acc ++ new) ∧
      new.Nodup ∧ (∀ t ∈ new, t ∉ reached) ∧
      (∀ t ∈ new, t ≠ "" ∧ ∃ sym ∈ syms, assoc m sym = some t) := by
  induction syms with
  | nil => intro reached acc; exact ⟨[], by simp [visitFold]⟩
  | cons sym rest ih =>
    intro reached acc
    cases hm : assoc m sym with
    | none =>
      rcases ih reached acc with ⟨new, heq, hnd, hnr, hsrc⟩
      refine ⟨new, by simpa [visitFold, hm] using heq, hnd, hnr, ?_⟩
      intro t ht
      rcases hsrc t ht with ⟨h1, s, hs, h2⟩
      exact ⟨h1, s, List.mem_cons_of_mem _ hs, h2⟩
    | some t =>
      by_cases hc : t ≠ "" ∧ t ∉ reached
      · rcases ih (reached ++ [t]) (acc ++ [t]) with ⟨new, heq, hnd, hnr, hsrc⟩
        refine ⟨t :: new, ?_, ?_, ?_, ?_⟩
        · have hstep : visitFold m (sym :: rest) reached acc =
              visitFold m rest (reached ++ [t]) (acc ++ [t]) := by
            simp only [visitFold, hm]
            rw [if_pos hc]
          rw [hstep, heq]
          simp
        · refine List.nodup_cons.mpr ⟨?_, hnd⟩
          intro hmem
          exact hnr t hmem (by simp)
        · intro u hu
          rcases List.mem_cons.mp hu with rfl | hu'
          · exact hc.2
          · intro hur
            exact hnr u hu' (by simp [hur])
        · intro u hu
          rcases List.mem_cons.mp hu with rfl | hu'
          · exact ⟨hc.1, sym, List.mem_cons_self _ _, hm⟩
          · rcases hsrc u hu' with ⟨h1, s, hs, h2⟩
            exact ⟨h1, s, List.mem_cons_of_mem _ hs, h2⟩
      · rcases ih reached acc with ⟨new, heq, hnd, hnr, hsrc⟩
        have hstep : visitFold m (sym :: rest) reached acc = visitFold m rest reached acc := by
          simp only [visitFold, hm]
          rw [if_neg hc]
        refine ⟨new, by rw [hstep, heq], hnd, hnr, ?_⟩
        intro u hu
        rcases hsrc u hu with ⟨h1, s, hs, h2⟩
        exact ⟨h1, s, List.mem_cons_of_mem _ hs, h2⟩

/-- `visit` grows the reached set by exactly the states it appends to the
queue: fresh, non-empty, truthy transition targets of the dequeued state. -/
theorem visit_spec (d : DFA) (cur : String) (reached : List String) :
    ∃ new, visit d cur reached = (reached ++ new, new) ∧
      new.Nodup ∧ (∀ t ∈ new, t ∉ reached) ∧
      (∀ t ∈ new, t ≠ "" ∧ ∃ m, assoc d.transitions cur = some m ∧
        ∃ sym ∈ d.alphabet, assoc m sym = some t) := by
  unfold visit
  cases hm : assoc d.transitions cur with
  | none => exact ⟨[], by simp⟩
  | some m =>
    rcases visitFold_spec m d.alphabet reached [] with ⟨new, heq, hnd, hnr, hsrc⟩
    refine ⟨new, by simpa using heq, hnd, hnr, ?_⟩
    intro t ht
    rcases hsrc t ht with ⟨h1, s, hs, h2⟩
    exact ⟨h1, m, rfl, s, hs, h2⟩

/-- The reached set only grows along the BFS. -/
theorem bfs_mono (d : DFA) :
    ∀ fuel q reached, ∀ s ∈ reached, s ∈ bfs d fuel q reached := by
  intro fuel
  induction fuel with
  | zero => intro q reached s hs; simpa [bfs] using hs
  | succ f ih =>
    intro q reached s hs
    cases q with
    | nil => simpa [bfs] using hs
    | cons cur rest =>
      rcases visit_spec d cur reached with ⟨new, heq, -, -, -⟩
      simp only [bfs, heq]
      exact ih _ _ s (List.mem_append_left _ hs)

/-- Everything the BFS collects is `ReachSkip`-reachable, given that the
initial reached set and queue are. -/
theorem bfs_reachskip (d : DFA) :
    ∀ fuel q reached, (∀ s ∈ reached, ReachSkip d s) → (∀ s ∈ q, s ∈ reached) →
      ∀ s ∈ bfs d fuel q reached, ReachSkip d s := by
  intro fuel
  induction fuel with
  | zero => intro q reached hr _ s hs; exact hr s (by simpa [bfs] using hs)
  | succ f ih =>
    intro q reached hr hq s hs
    cases q with
    | nil => exact hr s (by simpa [bfs] using hs)
    | cons cur rest =>
      rcases visit_spec d cur reached with ⟨new, heq, -, -, hsrc⟩
      simp only [bfs, heq] at hs
      refine ih (rest ++ new) (reached ++ new) ?_ ?_ s hs
      · intro u hu
        rcases List.mem_append.mp hu with hu' | hu'
        · exact hr u hu'
        · rcases hsrc u hu' with ⟨h1, m, hm, sym, hsym, ht⟩
          exact ReachSkip.step cur sym m u (hr cur (hq cur (List.mem_cons_self _ _))) hsym hm ht h1
      · intro u hu
        rcases List.mem_append.mp hu with hu' | hu'
        · exact List.mem_append_left _ (hq u (List.mem_cons_of_mem _ hu'))
        · exact List.mem_append_right _ hu'

/-- Everything the collected `reachable_states` set contains is
`ReachSkip`-reachable. -/
theorem reachableSet_sound (d : DFA) : ∀ s ∈ reachableSet d, ReachSkip d s := by
  intro s hs
  refine bfs_reachskip d (bfsFuel d) [d.start_state] [d.start_state] ?_ ?_ s hs
  · intro u hu
    rcases List.mem_singleton.mp hu with rfl
    exact ReachSkip.start
  · intro u hu
    exact hu

theorem start_mem_reachableSet (d : DFA) : d.start_state ∈ reachableSet d :=
  bfs_mono d (bfsFuel d) [d.start_state] [d.start_state] _ (List.mem_singleton.mpr rfl)

/-- A `ReachSkip`-reachable state is the start state or a non-empty name. -/
theorem reachskip_ne_empty {d : DFA} {s : String} (h : ReachSkip d s) :
    s = d.start_state ∨ s ≠ "" := by
  cases h with
  | start => exact Or.inl rfl
  | step s' sym m t _ _ _ _ ht => exact Or.inr ht

/-- The fields of a successful `remove_unreachable_states`. -/
theorem remove_unreachable_eq {d d' : DFA} (h : remove_unreachable_states d = some d') :
    d'.states = d.states.filter (fun s => decide (s ∈ reachableSet d)) ∧
    d'.alphabet = d.alphabet ∧
    buildTrans d.transitions (reachableSet d) = some d'.transitions ∧
    d'.start_state = d.start_state ∧
    d'.final_states = d.final_states.filter (fun s => decide (s ∈ reachableSet d)) := by
  unfold remove_unreachable_states at h
  cases hb : buildTrans d.transitions (reachableSet d) with
  | none => rw [hb] at h; cases h
  | some nt =>
    rw [hb] at h
    cases h
    exact ⟨rfl, rfl, rfl, rfl, rfl⟩

/-- **C10**: the BFS never collects a state named by the empty string (the
truthiness test skips it), so the empty-string state survives pruning only
when it is the start state. -/
theorem claim10_empty_string_skipped (d d' : DFA)
    (h : remove_unreachable_states d = some d') :
    ("" ∈ reachableSet d → d.start_state = "") ∧
    ("" ∈ d'.states ↔ "" ∈ d.states ∧ d.start_state = "") := by
  have hr : "" ∈ reachableSet d → d.start_state = "" := by
    intro hmem
    rcases reachskip_ne_empty (reachableSet_sound d _ hmem) with h1 | h1
    · exact h1.symm
    · exact absurd rfl h1
  rcases remove_unreachable_eq h with ⟨hst, -, -, -, -⟩
  refine ⟨hr, ?_⟩
  rw [hst]
  constructor
  · intro hmem
    rcases List.mem_filter.mp hmem with ⟨h1, h2⟩
    exact ⟨h1, hr (by simpa using h2)⟩
  · rintro ⟨h1, h2⟩
    refine List.mem_filter.mpr ⟨h1, ?_⟩
    simpa using h2 ▸ start_mem_reachableSet d

/-- Witness for C10 at `e1`, where `""` is a transition target of a visited
state yet is dropped. -/
theorem claim10_witness :
    ("" ∈ reachableSet e1 → e1.start_state = "") ∧
    ("" ∈ e1p.states ↔ "" ∈ e1.states ∧ e1.start_state = "") :=
  claim10_empty_string_skipped e1 e1p (by decide)

/-- **C2, counterexample**: `e1` passes validation, its state `""` is
reachable from the start state by the string `a`, yet the pruned automaton's
state set omits it — the output states are not exactly the reachable
states. -/
theorem claim2_counterexample :
    (is_valid e1).1 = true ∧ remove_unreachable_states e1 = some e1p ∧
    ReachSpec e1 "" ∧ "" ∈ e1.states ∧ "" ∉ e1p.states :=
  ⟨by decide, by decide, ⟨["a"], by decide, by decide⟩, by decide, by decide⟩

/-! ### BFS completeness: the collected set is closed -/

/-- `x`'s truthy transition targets all lie in `R`. -/
def closedAt (d : DFA) (R : List String) (x : String) : Prop :=
  ∀ sym ∈ d.alphabet, ∀ m t, assoc d.transitions x = some m → assoc m sym = some t →
    t ≠ "" → t ∈ R

theorem closedAt_mono {d : DFA} {R R' : List String} {x : String}
    (h : closedAt d R x) (hsub : ∀ y ∈ R, y ∈ R') : closedAt d R' x := by
  intro sym hsym m t hm ht hne
  exact hsub t (h sym hsym m t hm ht hne)

theorem assoc_some_mem {α : Type} {l : List (String × α)} {s : String} {v : α}
    (h : assoc l s = some v) : (s, v) ∈ l := by
  induction l with
  | nil => cases h
  | cons kv rest ih =>
    obtain ⟨k, w⟩ := kv
    by_cases hk : k = s
    · subst hk
      simp only [assoc, if_pos rfl] at h
      cases h
      exact List.mem_cons_self _ _
    · simp only [assoc, if_neg hk] at h
      exact List.mem_cons_of_mem _ (ih h)

theorem target_mem_targetsOf {t : TMap} {cur sym tgt : String} {m : SMap}
    (h1 : assoc t cur = some m) (h2 : assoc m sym = some tgt) : tgt ∈ targetsOf t := by
  unfold targetsOf
  rw [List.mem_flatMap]
  exact ⟨(cur, m), assoc_some_mem h1, List.mem_map.mpr ⟨(sym, tgt), assoc_some_mem h2, rfl⟩⟩

theorem visitFold_reached_mono (m : SMap) (syms reached acc : List String) :
    ∀ x ∈ reached, x ∈ (visitFold m syms reached acc).1 := by
  rcases visitFold_spec m syms reached acc with ⟨new, heq, -, -, -⟩
  rw [heq]
  intro x hx
  exact List.mem_append_left _ hx

theorem visitFold_covers (m : SMap) :
    ∀ syms reached acc sym t, sym ∈ syms → assoc m sym = some t → t ≠ "" →
      t ∈ (visitFold m syms reached acc).1 := by
  intro syms
  induction syms with
  | nil => intro _ _ _ _ hmem; cases hmem
  | cons sym0 rest ih =>
    intro reached acc sym t hmem ht hne
    rcases List.mem_cons.mp hmem with rfl | hmem'
    · cases hm0 : assoc m sym with
      | none => rw [hm0] at ht; cases ht
      | some t0 =>
        rw [hm0] at ht
        cases ht
        by_cases hc : t ≠ "" ∧ t ∉ reached
        · have hstep : visitFold m (sym :: rest) reached acc =
              visitFold m rest (reached ++ [t]) (acc ++ [t]) := by
            simp only [visitFold, hm0]
            rw [if_pos hc]
          rw [hstep]
          exact visitFold_reached_mono m rest _ _ t (List.mem_append_right _ (by simp))
        · have htr : t ∈ reached := by
            rcases not_and_or.mp hc with h1 | h1
            · exact absurd hne (by simpa using h1)
            · simpa using h1
          have hstep : visitFold m (sym :: rest) reached acc = visitFold m rest reached acc := by
            simp only [visitFold, hm0]
            rw [if_neg hc]
          rw [hstep]
          exact visitFold_reached_mono m rest _ _ t htr
    · cases hm0 : assoc m sym0 with
      | none =>
        have hstep : visitFold m (sym0 :: rest) reached acc = visitFold m rest reached acc := by
          simp only [visitFold, hm0]
        rw [hstep]
        exact ih reached acc sym t hmem' ht hne
      | some t0 =>
        by_cases hc : t0 ≠ "" ∧ t0 ∉ reached
        · have hstep : visitFold m (sym0 :: rest) reached acc =
              visitFold m rest (reached ++ [t0]) (acc ++ [t0]) := by
            simp only [visitFold, hm0]
            rw [if_pos hc]
          rw [hstep]
          exact ih _ _ sym t hmem' ht hne
        · have hstep : visitFold m (sym0 :: rest) reached acc = visitFold m rest reached acc := by
            simp only [visitFold, hm0]
            rw [if_neg hc]
          rw [hstep]
          exact ih reached acc sym t hmem' ht hne

/-- After `visit` processes `cur`, every truthy target of `cur` is in the
grown reached set. -/
theorem visit_covers (d : DFA) (cur : String) (reached : List String) :
    closedAt d ((visit d cur reached).1) cur := by
  intro sym hsym m t hm ht hne
  unfold visit
  rw [hm]
  exact visitFold_covers m d.alphabet reached [] sym t hsym ht hne

/-- The counting step of the BFS fuel bound: adding `new` fresh universe
elements to the reached set shrinks the unreached part of the universe by at
least `new.length`. -/
theorem length_filter_not_append {U r new : List String} (hnd : new.Nodup)
    (hsub : ∀ x ∈ new, x ∈ U) (hnr : ∀ x ∈ new, x ∉ r) :
    (U.filter (fun x => decide (x ∉ r ++ new))).length + new.length ≤
      (U.filter (fun x => decide (x ∉ r))).length := by
  have hsplit :
      ((U.filter (fun x => decide (x ∉ r))).filter (fun x => decide (x ∈ new))).length +
        ((U.filter (fun x => decide (x ∉ r))).filter (fun x => !decide (x ∈ new))).length =
        (U.filter (fun x => decide (x ∉ r))).length := by
    have hp := List.filter_append_perm (fun x => decide (x ∈ new))
      (U.filter (fun x => decide (x ∉ r)))
    have := hp.length_eq
    simpa [List.length_append] using this
  have h1 : U.filter (fun x => decide (x ∉ r ++ new)) =
      (U.filter (fun x => decide (x ∉ r))).filter (fun x => !decide (x ∈ new)) := by
    rw [List.filter_filter]
    apply List.filter_congr
    intro x _
    by_cases hxr : x ∈ r
    · simp [hxr]
    · by_cases hxn : x ∈ new
      · simp [hxr, hxn]
      · simp [hxr, hxn]
  have h2 : new.length ≤
      ((U.filter (fun x => decide (x ∉ r))).filter (fun x => decide (x ∈ new))).length := by
    have hcard : new.toFinset.card = new.length := List.toFinset_card_of_nodup hnd
    have hsubf : new.toFinset ⊆
        ((U.filter (fun x => decide (x ∉ r))).filter (fun x => decide (x ∈ new))).toFinset := by
      intro x hx
      rw [List.mem_toFinset] at hx
      rw [List.mem_toFinset]
      refine List.mem_filter.mpr ⟨List.mem_filter.mpr ⟨hsub x hx, by simpa using hnr x hx⟩, ?_⟩
      simpa using hx
    calc new.length = new.toFinset.card := hcard.symm
      _ ≤ ((U.filter (fun x => decide (x ∉ r))).filter
            (fun x => decide (x ∈ new))).toFinset.card := Finset.card_le_card hsubf
      _ ≤ _ := List.toFinset_card_le _
  rw [h1]
  omega

/-- The drain lemma: with the stated fuel bound the BFS empties its queue, so
every collected state is closed (all its truthy targets are collected). -/
theorem bfs_closed (d : DFA) :
    ∀ fuel q reached,
      reached.Nodup →
      (∀ x ∈ q, x ∈ reached) →
      (∀ x ∈ reached, x ∈ uni d) →
      (∀ x ∈ reached, x ∉ q → closedAt d reached x) →
      q.length + 2 * ((uni d).filter (fun x => decide (x ∉ reached))).length ≤ fuel →
      ∀ x ∈ bfs d fuel q reached, closedAt d (bfs d fuel q reached) x := by
  intro fuel
  induction fuel with
  | zero =>
    intro q reached _ _ _ hproc hfuel x hx
    have hq0 : q = [] := List.length_eq_zero.mp (by omega)
    subst hq0
    simp only [bfs] at hx ⊢
    exact hproc x hx (List.not_mem_nil x)
  | succ f ih =>
    intro q reached hnd hq hU hproc hfuel x hx
    cases q with
    | nil =>
      simp only [bfs] at hx ⊢
      exact hproc x hx (List.not_mem_nil x)
    | cons cur rest =>
      rcases visit_spec d cur reached with ⟨new, heq, hndnew, hnr, hsrc⟩
      have hb : bfs d (f + 1) (cur :: rest) reached = bfs d f (rest ++ new) (reached ++ new) := by
        simp only [bfs, heq]
      rw [hb] at hx ⊢
      have hnd' : (reached ++ new).Nodup := by
        refine List.Nodup.append hnd hndnew ?_
        intro a ha hb'
        exact hnr a hb' ha
      have hq' : ∀ y ∈ rest ++ new, y ∈ reached ++ new := by
        intro y hy
        rcases List.mem_append.mp hy with hy' | hy'
        · exact List.mem_append_left _ (hq y (List.mem_cons_of_mem _ hy'))
        · exact List.mem_append_right _ hy'
      have hU' : ∀ y ∈ reached ++ new, y ∈ uni d := by
        intro y hy
        rcases List.mem_append.mp hy with hy' | hy'
        · exact hU y hy'
        · rcases hsrc y hy' with ⟨_, m, hm, sym, _, ht⟩
          unfold uni
          rw [List.mem_dedup]
          exact List.mem_cons_of_mem _ (target_mem_targetsOf hm ht)
      have hproc' : ∀ y ∈ reached ++ new, y ∉ rest ++ new → closedAt d (reached ++ new) y := by
        intro y hy hyq
        rcases List.mem_append.mp hy with hy' | hy'
        · by_cases hyc : y = cur
          · subst hyc
            have hcov := visit_covers d y reached
            rw [heq] at hcov
            exact hcov
          · have hynq : y ∉ cur :: rest := by
              intro hmem
              rcases List.mem_cons.mp hmem with h1 | h1
              · exact hyc h1
              · exact hyq (List.mem_append_left _ h1)
            exact closedAt_mono (hproc y hy' hynq) (fun z hz => List.mem_append_left _ hz)
        · exact absurd (List.mem_append_right rest hy') hyq
      have hfuel' : (rest ++ new).length +
          2 * ((uni d).filter (fun x => decide (x ∉ reached ++ new))).length ≤ f := by
        have hcount := length_filter_not_append (U := uni d) (r := reached) hndnew
          (fun z hz => hU' z (List.mem_append_right _ hz)) hnr
        have hlen : (cur :: rest).length = rest.length + 1 := by simp
        rw [List.length_append]
        omega
      exact ih (rest ++ new) (reached ++ new) hnd' hq' hU' hproc' hfuel' x hx

/-- The collected `reachable_states` set is closed under truthy
transitions. -/
theorem reachableSet_closed (d : DFA) :
    ∀ x ∈ reachableSet d, closedAt d (reachableSet d) x := by
  intro x hx
  refine bfs_closed d (bfsFuel d) [d.start_state] [d.start_state] (by simp)
    (fun y hy => hy) ?_ ?_ ?_ x hx
  · intro y hy
    rcases List.mem_singleton.mp hy with rfl
    unfold uni
    rw [List.mem_dedup]
    exact List.mem_cons_self _ _
  · intro y hy hyq
    exact absurd hy hyq
  · unfold bfsFuel
    have hle := List.length_filter_le (fun x => decide (x ∉ [d.start_state])) (uni d)
    simp only [List.length_singleton]
    omega

/-- Every `ReachSkip`-reachable state is collected by the BFS. -/
theorem reachskip_complete (d : DFA) {s : String} (h : ReachSkip d s) :
    s ∈ reachableSet d := by
  induction h with
  | start => exact start_mem_reachableSet d
  | step s' sym m t _ hsym hm ht hne ih =>
    exact reachableSet_closed d s' ih sym hsym m t hm ht hne

/-- On a valid automaton, `ReachSkip`-reachable states lie in the state
set. -/
theorem reachskip_mem_states {d : DFA} (hv : ValidProp d) {s : String}
    (h : ReachSkip d s) : s ∈ d.states := by
  induction h with
  | start => exact hv.2.1
  | step s' sym m t _ hsym hm ht _ ih =>
    rcases hv.2.2.2 s' ih with ⟨m', hm', hsyms⟩
    have hmm : m' = m := by
      rw [hm] at hm'
      exact (Option.some.inj hm').symm
    subst hmm
    rcases hsyms sym hsym with ⟨t', ht', htmem⟩
    have htt : t' = t := by
      rw [ht] at ht'
      exact (Option.some.inj ht').symm
    subst htt
    exact htmem

theorem runDFA_append (d : DFA) (w1 w2 : List String) :
    ∀ x, runDFA d x (w1 ++ w2) =
      match runDFA d x w1 with
      | none => none
      | some y => runDFA d y w2 := by
  induction w1 with
  | nil => intro x; simp [runDFA]
  | cons sym rest ih =>
    intro x
    cases hm : assoc d.transitions x with
    | none => simp [runDFA, hm]
    | some m =>
      cases ht : assoc m sym with
      | none => simp [runDFA, hm, ht]
      | some t => simp [runDFA, hm, ht, ih t]

/-- On a valid automaton all of whose states have non-empty names,
reachability by a string coincides with what the skipping BFS can reach. -/
theorem reachspec_iff_reachskip (d : DFA) (hv : ValidProp d)
    (hne : ∀ s ∈ d.states, s ≠ "") (s : String) :
    ReachSpec d s ↔ ReachSkip d s := by
  constructor
  · rintro ⟨w, hw, hrun⟩
    have main : ∀ (w' : List String) (x : String), ReachSkip d x →
        (∀ c ∈ w', c ∈ d.alphabet) → runDFA d x w' = some s → ReachSkip d s := by
      intro w'
      induction w' with
      | nil =>
        intro x hx _ hrun'
        simp only [runDFA] at hrun'
        cases hrun'
        exact hx
      | cons sym rest ih =>
        intro x hx hall hrun'
        cases hm : assoc d.transitions x with
        | none =>
          simp only [runDFA, hm] at hrun'
          cases hrun'
        | some m =>
          cases ht : assoc m sym with
          | none =>
            simp only [runDFA, hm, ht] at hrun'
            cases hrun'
          | some t =>
            simp only [runDFA, hm, ht] at hrun'
            have hxs : x ∈ d.states := reachskip_mem_states hv hx
            have htmem2 : t ∈ d.states := by
              rcases hv.2.2.2 x hxs with ⟨m', hm', hsyms⟩
              have hmm : m' = m := by
                rw [hm] at hm'
                exact (Option.some.inj hm').symm
              rcases hsyms sym (hall sym (List.mem_cons_self _ _)) with ⟨t', ht', htmem⟩
              have htt : t' = t := by
                rw [hmm] at ht'
                rw [ht] at ht'
                exact (Option.some.inj ht').symm
              exact htt ▸ htmem
            have hskt : ReachSkip d t :=
              ReachSkip.step x sym m t hx (hall sym (List.mem_cons_self _ _)) hm ht
                (hne t htmem2)
            exact ih t hskt (fun c hc => hall c (List.mem_cons_of_mem _ hc)) hrun'
    exact main w d.start_state ReachSkip.start hw hrun
  · intro h
    induction h with
    | start => exact ⟨[], by simp, rfl⟩
    | step s' sym m t _ hsym hm ht _ ih =>
      rcases ih with ⟨w, hw, hrun⟩
      refine ⟨w ++ [sym], ?_, ?_⟩
      · intro c hc
        rcases List.mem_append.mp hc with hc' | hc'
        · exact hw c hc'
        · rcases List.mem_singleton.mp hc' with rfl
          exact hsym
      · rw [runDFA_append, hrun]
        simp [runDFA, hm, ht]

/-- `buildTrans` succeeds when every listed state has an entry, and the
resulting dict is exactly the restriction to the list. -/
theorem buildTrans_spec (t : TMap) :
    ∀ l : List String, (∀ s ∈ l, ∃ m, assoc t s = some m) →
      ∃ nt, buildTrans t l = some nt ∧
        ∀ s, assoc nt s = if s ∈ l then assoc t s else none := by
  intro l
  induction l with
  | nil =>
    intro _
    refine ⟨[], rfl, ?_⟩
    intro s
    simp [assoc]
  | cons s0 rest ih =>
    intro hall
    rcases hall s0 (List.mem_cons_self _ _) with ⟨m0, hm0⟩
    rcases ih (fun s hs => hall s (List.mem_cons_of_mem _ hs)) with ⟨nt, hnt, hspec⟩
    refine ⟨(s0, m0) :: nt, ?_, ?_⟩
    · simp only [buildTrans, hm0, hnt]
    · intro s
      by_cases hs : s0 = s
      · subst hs
        simp [assoc, hm0]
      · simp only [assoc, if_neg hs, hspec]
        by_cases hmem : s ∈ rest
        · simp [hmem, List.mem_cons, Ne.symm hs]
        · have : s ∉ s0 :: rest := by
            intro hc
            rcases List.mem_cons.mp hc with h1 | h1
            · exact hs h1.symm
            · exact hmem h1
          simp [hmem, this]

/-- **C2 (amended)**: for every validated automaton all of whose state names
are non-empty strings, `remove_unreachable_states` succeeds and returns an
automaton whose state set is exactly the set of states reachable from
`start_state` by some string over the alphabet, whose final states are the
reachable original final states, whose transitions are the original ones
restricted to the reachable states, and whose start state and alphabet are
unchanged.  (The non-emptiness hypothesis is forced by the counterexample:
the BFS truthiness test skips empty-string names.) -/
theorem claim2_amended (d : DFA) (hv : (is_valid d).1 = true)
    (hne : ∀ s ∈ d.states, s ≠ "") :
    ∃ d', remove_unreachable_states d = some d' ∧
      (∀ s, s ∈ d'.states ↔ ReachSpec d s) ∧
      (∀ s, s ∈ d'.final_states ↔ s ∈ d.final_states ∧ ReachSpec d s) ∧
      (∀ s, ReachSpec d s → assoc d'.transitions s = assoc d.transitions s) ∧
      (∀ s, ¬ ReachSpec d s → assoc d'.transitions s = none) ∧
      d'.start_state = d.start_state ∧ d'.alphabet = d.alphabet := by
  rw [is_valid_true_iff] at hv
  have hrs_states : ∀ s ∈ reachableSet d, s ∈ d.states := fun s hs =>
    reachskip_mem_states hv (reachableSet_sound d s hs)
  have hiff : ∀ s, s ∈ reachableSet d ↔ ReachSpec d s := by
    intro s
    rw [reachspec_iff_reachskip d hv hne]
    exact ⟨reachableSet_sound d s, reachskip_complete d⟩
  rcases buildTrans_spec d.transitions (reachableSet d)
      (fun s hs => by
        rcases hv.2.2.2 s (hrs_states s hs) with ⟨m, hm, -⟩
        exact ⟨m, hm⟩) with ⟨nt, hnt, hntspec⟩
  refine ⟨⟨d.states.filter (fun s => s ∈ reachableSet d), d.alphabet, nt, d.start_state,
    d.final_states.filter (fun s => s ∈ reachableSet d)⟩, ?_, ?_, ?_, ?_, ?_, rfl, rfl⟩
  · unfold remove_unreachable_states
    rw [hnt]
  · intro s
    simp only [List.mem_filter, decide_eq_true_eq]
    constructor
    · rintro ⟨-, h2⟩
      exact (hiff s).mp h2
    · intro h
      exact ⟨hrs_states s ((hiff s).mpr h), (hiff s).mpr h⟩
  · intro s
    simp only [List.mem_filter, decide_eq_true_eq]
    constructor
    · rintro ⟨h1, h2⟩
      exact ⟨h1, (hiff s).mp h2⟩
    · rintro ⟨h1, h2⟩
      exact ⟨h1, (hiff s).mpr h2⟩
  · intro s hr
    rw [hntspec s, if_pos ((hiff s).mpr hr)]
  · intro s hr
    rw [hntspec s, if_neg (fun hs => hr ((hiff s).mp hs))]

/-- Witness for the amended C2 at the concrete valid automaton `exW`. -/
theorem claim2_amended_witness :
    ∃ d', remove_unreachable_states exW = some d' ∧
      (∀ s, s ∈ d'.states ↔ ReachSpec exW s) ∧
      (∀ s, s ∈ d'.final_states ↔ s ∈ exW.final_states ∧ ReachSpec exW s) ∧
      (∀ s, ReachSpec exW s → assoc d'.transitions s = assoc exW.transitions s) ∧
      (∀ s, ¬ ReachSpec exW s → assoc d'.transitions s = none) ∧
      d'.start_state = exW.start_state ∧ d'.alphabet = exW.alphabet :=
  claim2_amended exW (by decide) (by decide)

/-! ### The closure pass: basic table lemmas -/

theorem setT_self (T : Table) (i j : Nat) : setT T i j i j = true := by
  simp [setT]

theorem setT_mono {T : Table} {i j a b : Nat} (h : T a b = true) : setT T i j a b = true := by
  unfold setT
  split
  · rfl
  · exact h

theorem setT_eq_or {T : Table} {i j a b : Nat} (h : setT T i j a b = true) :
    T a b = true ∨ (a = i ∧ b = j) := by
  unfold setT at h
  split at h
  · right; assumption
  · left; exact h

theorem min_ne_max_iff (a c : Nat) : (min a c ≠ max a c) ↔ a ≠ c := by
  omega

theorem mem_pairList {n : Nat} {ij : Nat × Nat} :
    ij ∈ pairList n ↔ ij.1 < ij.2 ∧ ij.2 < n := by
  obtain ⟨i, j⟩ := ij
  unfold pairList
  rw [List.mem_flatMap]
  constructor
  · rintro ⟨i', hi', hmem⟩
    rcases List.mem_map.mp hmem with ⟨j', hj', heq⟩
    cases heq
    rw [List.mem_range] at hi'
    rw [List.mem_range'_1] at hj'
    constructor <;> omega
  · rintro ⟨h1, h2⟩
    refine ⟨i, List.mem_range.mpr (by omega), List.mem_map.mpr ⟨j, ?_, rfl⟩⟩
    rw [List.mem_range'_1]
    omega

theorem length_flatMap_le {α β : Type} (l : List α) (f : α → List β) (k : Nat)
    (h : ∀ x ∈ l, (f x).length ≤ k) : (l.flatMap f).length ≤ l.length * k := by
  induction l with
  | nil => simp
  | cons x xs ih =>
    rw [List.flatMap_cons, List.length_append, List.length_cons, Nat.succ_mul]
    have h1 := h x (List.mem_cons_self _ _)
    have h2 := ih (fun y hy => h y (List.mem_cons_of_mem _ hy))
    omega

theorem pairList_length_le (n : Nat) : (pairList n).length ≤ n * n := by
  unfold pairList
  have := length_flatMap_le (List.range n)
    (fun i => (List.range' (i + 1) (n - (i + 1))).map (fun j => (i, j))) n
    (fun x _ => by
      rw [List.length_map, List.length_range']
      omega)
  simpa using this

/-- Characterization of the inner symbol loop on one pair: it reports a mark
exactly when some symbol of the list leads to two distinct successors whose
canonical pair is marked in the current table. -/
theorem trySyms_eq_some_iff (d : DFA) (states : List String) (T : Table) (i j : Nat) :
    ∀ (l : List String) (b : Bool), trySyms d states T i j l = some b →
      (b = true ↔ ∃ sym ∈ l, ∃ a c, succIdx d states i sym = some a ∧
        succIdx d states j sym = some c ∧ a ≠ c ∧ T (min a c) (max a c) = true) := by
  intro l
  induction l with
  | nil =>
    intro b h
    simp only [trySyms] at h
    cases h
    simp
  | cons sym rest ih =>
    intro b h
    simp only [trySyms] at h
    cases hsa : succIdx d states i sym with
    | none => rw [hsa] at h; cases h
    | some a =>
      simp only [hsa] at h
      cases hsc : succIdx d states j sym with
      | none => rw [hsc] at h; cases h
      | some c =>
        simp only [hsc] at h
        by_cases hcond : min a c ≠ max a c ∧ T (min a c) (max a c) = true
        · rw [if_pos hcond] at h
          cases h
          constructor
          · intro _
            exact ⟨sym, List.mem_cons_self _ _, a, c, hsa, hsc,
              (min_ne_max_iff a c).mp hcond.1, hcond.2⟩
          · intro _
            rfl
        · rw [if_neg hcond] at h
          rw [ih b h]
          constructor
          · rintro ⟨sym', hmem, a', c', h1, h2, h3, h4⟩
            exact ⟨sym', List.mem_cons_of_mem _ hmem, a', c', h1, h2, h3, h4⟩
          · rintro ⟨sym', hmem, a', c', h1, h2, h3, h4⟩
            rcases List.mem_cons.mp hmem with rfl | hmem'
            · exfalso
              have haa : a' = a := Option.some.inj (h1.symm.trans hsa)
              have hcc : c' = c := Option.some.inj (h2.symm.trans hsc)
              rw [haa, hcc] at h3 h4
              exact hcond ⟨(min_ne_max_iff a c).mpr h3, h4⟩
            · exact ⟨sym', hmem', a', c', h1, h2, h3, h4⟩

/-- **C5**: in a closure pass, an unmarked pair `(i, j)` becomes marked if
and only if some alphabet symbol leads to a pair of successor indices that
is distinct (in canonical min/max order) and already marked in the table as
it stands when the pair is processed; identical successors never force a
mark. -/
theorem claim5_marking_rule (d : DFA) (states : List String) (T : Table) (ch : Bool)
    (i j : Nat) (res : Table × Bool) (hT : T i j = false)
    (hp : processPair d states (T, ch) (i, j) = some res) :
    res.1 i j = true ↔ ∃ sym ∈ d.alphabet, ∃ a c, succIdx d states i sym = some a ∧
      succIdx d states j sym = some c ∧ a ≠ c ∧ T (min a c) (max a c) = true := by
  unfold processPair at hp
  rw [if_neg (by simp [hT])] at hp
  cases hts : trySyms d states T i j d.alphabet with
  | none => rw [hts] at hp; cases hp
  | some bb =>
    rw [hts] at hp
    have hiff := trySyms_eq_some_iff d states T i j d.alphabet bb hts
    cases bb with
    | true =>
      cases hp
      constructor
      · intro _
        exact hiff.mp rfl
      · intro _
        exact setT_self T i j
    | false =>
      cases hp
      simp only [hT]
      exact hiff

/-- Witness for C5 at a concrete unmarked pair of `exW`. -/
theorem claim5_witness :
    (((fun _ _ => false) : Table) 0 1 = true ↔ ∃ sym ∈ exW.alphabet, ∃ a c,
      succIdx exW ["p", "r"] 0 sym = some a ∧ succIdx exW ["p", "r"] 1 sym = some c ∧
      a ≠ c ∧ ((fun _ _ => false) : Table) (min a c) (max a c) = true) :=
  claim5_marking_rule exW ["p", "r"] (fun _ _ => false) false 0 1
    ((fun _ _ => false), false) rfl rfl

/-! ### The closure loop: monotonicity, change detection, termination -/

theorem processPair_spec (d : DFA) (states : List String) (T : Table) (ch : Bool)
    (ij : Nat × Nat) (res : Table × Bool)
    (hp : processPair d states (T, ch) ij = some res) :
    (∀ a b, T a b = true → res.1 a b = true) ∧ (ch = true → res.2 = true) := by
  unfold processPair at hp
  by_cases hT : T ij.1 ij.2 = true
  · rw [if_pos hT] at hp
    cases hp
    exact ⟨fun a b h => h, fun h => h⟩
  · rw [if_neg hT] at hp
    cases hts : trySyms d states T ij.1 ij.2 d.alphabet with
    | none => simp only [hts] at hp; cases hp
    | some bb =>
      simp only [hts] at hp
      cases bb with
      | true =>
        cases hp
        exact ⟨fun a b h => setT_mono h, fun _ => rfl⟩
      | false =>
        cases hp
        exact ⟨fun a b h => h, fun h => h⟩

theorem passPairs_spec (d : DFA) (states : List String) :
    ∀ (l : List (Nat × Nat)) (T : Table) (ch : Bool) (res : Table × Bool),
      passPairs d states l (T, ch) = some res →
      (∀ a b, T a b = true → res.1 a b = true) ∧ (ch = true → res.2 = true) := by
  intro l
  induction l with
  | nil =>
    intro T ch res hp
    cases hp
    exact ⟨fun a b h => h, fun h => h⟩
  | cons ij rest ih =>
    intro T ch res hp
    simp only [passPairs] at hp
    cases hpp : processPair d states (T, ch) ij with
    | none => simp only [hpp] at hp; cases hp
    | some acc1 =>
      simp only [hpp] at hp
      obtain ⟨T1, ch1⟩ := acc1
      rcases processPair_spec d states T ch ij (T1, ch1) hpp with ⟨hm, hc⟩
      rcases ih T1 ch1 res hp with ⟨hm', hc'⟩
      exact ⟨fun a b h => hm' a b (hm a b h), fun h => hc' (hc h)⟩

/-- A pass that reports no change leaves the table untouched, and every pair
of the list was either already marked or had no forcing symbol. -/
theorem passPairs_no_change (d : DFA) (states : List String) :
    ∀ (l : List (Nat × Nat)) (T : Table) (res : Table × Bool),
      passPairs d states l (T, false) = some res → res.2 = false →
      res.1 = T ∧ ∀ ij ∈ l, T ij.1 ij.2 = true ∨
        trySyms d states T ij.1 ij.2 d.alphabet = some false := by
  intro l
  induction l with
  | nil =>
    intro T res hp _
    cases hp
    exact ⟨rfl, by simp⟩
  | cons ij rest ih =>
    intro T res hp hres
    simp only [passPairs] at hp
    cases hpp : processPair d states (T, false) ij with
    | none => simp only [hpp] at hp; cases hp
    | some acc1 =>
      simp only [hpp] at hp
      unfold processPair at hpp
      by_cases hT : T ij.1 ij.2 = true
      · rw [if_pos hT] at hpp
        cases hpp
        rcases ih T res hp hres with ⟨h1, h2⟩
        refine ⟨h1, ?_⟩
        intro ij' hmem
        rcases List.mem_cons.mp hmem with rfl | hmem'
        · exact Or.inl hT
        · exact h2 ij' hmem'
      · rw [if_neg hT] at hpp
        cases hts : trySyms d states T ij.1 ij.2 d.alphabet with
        | none => simp only [hts] at hpp; cases hpp
        | some bb =>
          simp only [hts] at hpp
          cases bb with
          | true =>
            cases hpp
            rcases passPairs_spec d states rest _ _ res hp with ⟨-, hc⟩
            rw [hc rfl] at hres
            cases hres
          | false =>
            cases hpp
            rcases ih T res hp hres with ⟨h1, h2⟩
            refine ⟨h1, ?_⟩
            intro ij' hmem
            rcases List.mem_cons.mp hmem with rfl | hmem'
            · exact Or.inr hts
            · exact h2 ij' hmem'

/-- A pass that reports a change marked a previously-unmarked pair of its
list. -/
theorem passPairs_change (d : DFA) (states : List String) :
    ∀ (l : List (Nat × Nat)) (T : Table) (res : Table × Bool),
      passPairs d states l (T, false) = some res → res.2 = true →
      ∃ ij ∈ l, T ij.1 ij.2 = false ∧ res.1 ij.1 ij.2 = true := by
  intro l
  induction l with
  | nil =>
    intro T res hp hres
    cases hp
    cases hres
  | cons ij rest ih =>
    intro T res hp hres
    simp only [passPairs] at hp
    cases hpp : processPair d states (T, false) ij with
    | none => simp only [hpp] at hp; cases hp
    | some acc1 =>
      simp only [hpp] at hp
      unfold processPair at hpp
      by_cases hT : T ij.1 ij.2 = true
      · rw [if_pos hT] at hpp
        cases hpp
        rcases ih T res hp hres with ⟨ij', hmem, h1, h2⟩
        exact ⟨ij', List.mem_cons_of_mem _ hmem, h1, h2⟩
      · rw [if_neg hT] at hpp
        cases hts : trySyms d states T ij.1 ij.2 d.alphabet with
        | none => simp only [hts] at hpp; cases hpp
        | some bb =>
          simp only [hts] at hpp
          cases bb with
          | true =>
            cases hpp
            refine ⟨ij, List.mem_cons_self _ _, by simpa using hT, ?_⟩
            rcases passPairs_spec d states rest _ _ res hp with ⟨hm, -⟩
            exact hm ij.1 ij.2 (setT_self _ _ _)
          | false =>
            cases hpp
            rcases ih T res hp hres with ⟨ij', hmem, h1, h2⟩
            exact ⟨ij', List.mem_cons_of_mem _ hmem, h1, h2⟩

theorem length_filter_le_mono {α : Type} (p q : α → Bool) :
    ∀ l : List α, (∀ x ∈ l, p x = true → q x = true) →
      (l.filter p).length ≤ (l.filter q).length := by
  intro l
  induction l with
  | nil => simp
  | cons x xs ih =>
    intro h
    have ih' := ih (fun y hy => h y (List.mem_cons_of_mem _ hy))
    by_cases hp : p x = true
    · rw [List.filter_cons_of_pos hp, List.filter_cons_of_pos (h x (List.mem_cons_self _ _) hp)]
      simpa using ih'
    · rw [List.filter_cons_of_neg (by simpa using hp)]
      cases hq : q x with
      | false =>
        rw [List.filter_cons_of_neg (by simp [hq])]
        exact ih'
      | true =>
        rw [List.filter_cons_of_pos hq]
        simp only [List.length_cons]
        omega

theorem length_filter_lt_strict {α : Type} (p q : α → Bool) (x0 : α)
    (hp0 : p x0 = false) (hq0 : q x0 = true) :
    ∀ l : List α, (∀ x ∈ l, p x = true → q x = true) → x0 ∈ l →
      (l.filter p).length < (l.filter q).length := by
  intro l
  induction l with
  | nil => intro _ hx0; cases hx0
  | cons x xs ih =>
    intro h hx0
    have hmono := fun y hy => h y (List.mem_cons_of_mem _ hy)
    rcases List.mem_cons.mp hx0 with rfl | hmem
    · rw [List.filter_cons_of_neg (by simp [hp0]), List.filter_cons_of_pos hq0]
      have hle := length_filter_le_mono p q xs hmono
      simp only [List.length_cons]
      omega
    · by_cases hpx : p x = true
      · rw [List.filter_cons_of_pos hpx,
          List.filter_cons_of_pos (h x (List.mem_cons_self _ _) hpx)]
        have := ih hmono hmem
        simp only [List.length_cons]
        omega
      · cases hqx : q x with
        | false =>
          rw [List.filter_cons_of_neg (by simpa using hpx),
            List.filter_cons_of_neg (by simp [hqx])]
          exact ih hmono hmem
        | true =>
          rw [List.filter_cons_of_neg (by simpa using hpx), List.filter_cons_of_pos hqx]
          have := ih hmono hmem
          simp only [List.length_cons]
          omega

/-- The number of marked pairs in the table. -/
def countMarks (states : List String) (T : Table) : Nat :=
  ((pairList states.length).filter (fun ij => T ij.1 ij.2)).length

theorem onePass_change_lt (d : DFA) (states : List String) (T : Table) (res : Table × Bool)
    (hp : onePass d states T = some res) (hch : res.2 = true) :
    countMarks states T < countMarks states res.1 := by
  rcases passPairs_change d states (pairList states.length) T res hp hch with
    ⟨ij, hmem, h1, h2⟩
  rcases passPairs_spec d states (pairList states.length) T false res hp with ⟨hm, -⟩
  exact length_filter_lt_strict _ _ ij h1 h2 (pairList states.length)
    (fun x _ hpx => hm x.1 x.2 hpx) hmem

/-- The closure loop always ends by a pass that reports no change — a pass
fixpoint — provided the fuel exceeds the number of unmarked pairs. -/
theorem closure_fixpoint (d : DFA) (states : List String) :
    ∀ (fuel : Nat) (T T' : Table),
      (pairList states.length).length + 1 ≤ fuel + countMarks states T →
      closure d states fuel T = some T' →
      onePass d states T' = some (T', false) := by
  intro fuel
  induction fuel with
  | zero =>
    intro T _ hb _
    exfalso
    have hle : countMarks states T ≤ (pairList states.length).length :=
      List.length_filter_le _ _
    omega
  | succ f ih =>
    intro T T' hb hcl
    simp only [closure] at hcl
    cases hop : onePass d states T with
    | none => simp only [hop] at hcl; cases hcl
    | some r =>
      obtain ⟨T1, ch1⟩ := r
      simp only [hop] at hcl
      cases ch1 with
      | true =>
        simp only [if_true] at hcl
        have hlt := onePass_change_lt d states T (T1, true) hop rfl
        refine ih T1 T' ?_ hcl
        simp only [countMarks] at hlt hb ⊢
        omega
      | false =>
        simp only [Bool.false_eq_true, if_false] at hcl
        rcases passPairs_no_change d states (pairList states.length) T (T1, false) hop rfl
          with ⟨h1, -⟩
        simp only at h1
        have hte : T' = T := by
          rw [← Option.some.inj hcl]
          exact h1
        rw [hte]
        rw [h1] at hop
        exact hop

/-- **C6**: for every validated automaton, the table-filling closure loop of
`minimize` terminates: every pass either marks at least one new pair
(strictly growing the marked-pair count, which the finite pair list bounds)
or reports no change, and with the fuel `n*n+1` used in `minimize` the loop
always ends at a pass fixpoint. -/
theorem claim6_closure_terminates (d pruned : DFA) (hv : (is_valid d).1 = true)
    (hp : remove_unreachable_states d = some pruned) :
    (∀ T res, onePass pruned (sortStrings pruned.states.dedup) T = some res →
      (res.2 = false ∧ res.1 = T) ∨
        countMarks (sortStrings pruned.states.dedup) T <
          countMarks (sortStrings pruned.states.dedup) res.1) ∧
    (∀ T T', closure pruned (sortStrings pruned.states.dedup)
        ((sortStrings pruned.states.dedup).length * (sortStrings pruned.states.dedup).length + 1)
        T = some T' →
      onePass pruned (sortStrings pruned.states.dedup) T' = some (T', false)) := by
  constructor
  · intro T res hop
    cases hr2 : res.2 with
    | false =>
      rcases passPairs_no_change pruned _ _ T res hop hr2 with ⟨h1, -⟩
      exact Or.inl ⟨rfl, h1⟩

    | true =>
      exact Or.inr (onePass_change_lt pruned _ T res hop hr2)
  · intro T T' hcl
    refine closure_fixpoint pruned _ _ T T' ?_ hcl
    have h1 := pairList_length_le (sortStrings pruned.states.dedup).length
    omega

/-! ### Index bookkeeping lemmas -/

theorem getD_mem_of_lt {l : List String} {i : Nat} (h : i < l.length) : l.getD i "" ∈ l := by
  rw [List.getD_eq_getElem?_getD, List.getElem?_eq_getElem h]
  exact List.getElem_mem h

theorem get?_eq_some_getD {l : List String} {i : Nat} (h : i < l.length) :
    l.get? i = some (l.getD i "") := by
  rw [List.get?_eq_getElem?, List.getElem?_eq_getElem h, List.getD_eq_getElem?_getD,
    List.getElem?_eq_getElem h]
  rfl

theorem getD_inj {l : List String} (hnd : l.Nodup) {i j : Nat}
    (hi : i < l.length) (hj : j < l.length) (h : l.getD i "" = l.getD j "") : i = j := by
  rw [List.getD_eq_getElem?_getD, List.getElem?_eq_getElem hi, List.getD_eq_getElem?_getD,
    List.getElem?_eq_getElem hj] at h
  exact (List.Nodup.getElem_inj_iff hnd).mp h

theorem idxOf_some {s : String} {k : Nat} :
    ∀ {l : List String}, idxOf l s = some k → k < l.length ∧ l.getD k "" = s := by
  intro l
  induction l generalizing k with
  | nil => intro h; cases h
  | cons y ys ih =>
    intro h
    simp only [idxOf] at h
    by_cases hy : y = s
    · rw [if_pos hy] at h
      cases h
      exact ⟨Nat.succ_pos _, hy⟩
    · rw [if_neg hy] at h
      cases hk : idxOf ys s with
      | none => rw [hk] at h; cases h
      | some k' =>
        rw [hk] at h
        cases h
        rcases ih hk with ⟨h1, h2⟩
        exact ⟨Nat.succ_lt_succ h1, h2⟩

theorem idxOf_mem_some {s : String} :
    ∀ {l : List String}, s ∈ l → ∃ k, idxOf l s = some k := by
  intro l
  induction l with
  | nil => intro h; cases h
  | cons y ys ih =>
    intro h
    by_cases hy : y = s
    · exact ⟨0, by simp [idxOf, hy]⟩
    · rcases List.mem_cons.mp h with h1 | h1
      · exact absurd h1.symm hy
      · rcases ih h1 with ⟨k, hk⟩
        exact ⟨k + 1, by simp [idxOf, hy, hk]⟩

theorem succIdx_some_facts {d : DFA} {states : List String} {i : Nat} {sym : String} {a : Nat}
    (h : succIdx d states i sym = some a) :
    i < states.length ∧ a < states.length ∧
      ∃ m, assoc d.transitions (states.getD i "") = some m ∧
        assoc m sym = some (states.getD a "") := by
  unfold succIdx at h
  cases hg : states.get? i with
  | none => rw [hg] at h; cases h
  | some s =>
    simp only [hg] at h
    have hi : i < states.length := by
      rcases List.get?_eq_some.mp hg with ⟨hlt, -⟩
      exact hlt
    have hs : s = states.getD i "" := by
      rw [get?_eq_some_getD hi] at hg
      exact (Option.some.inj hg).symm
    cases hm : assoc d.transitions s with
    | none => simp only [hm] at h; cases h
    | some m =>
      simp only [hm] at h
      cases ht : assoc m sym with
      | none => simp only [ht] at h; cases h
      | some t =>
        simp only [ht] at h
        rcases idxOf_some h with ⟨ha, hval⟩
        refine ⟨hi, ha, m, by rw [← hs]; exact hm, ?_⟩
        rw [hval]
        exact ht

/-- On a valid automaton every in-range index has a successor index under
every alphabet symbol. -/
theorem succIdx_total {d : DFA} (hv : ValidProp d) {states : List String}
    (hmem : ∀ s, s ∈ states ↔ s ∈ d.states) {i : Nat} (hi : i < states.length)
    {sym : String} (hsym : sym ∈ d.alphabet) : ∃ a, succIdx d states i sym = some a := by
  have hsd : states.getD i "" ∈ d.states := (hmem _).mp (getD_mem_of_lt hi)
  rcases hv.2.2.2 _ hsd with ⟨m, hm, hsyms⟩
  rcases hsyms sym hsym with ⟨t, ht, htmem⟩
  rcases idxOf_mem_some ((hmem t).mpr htmem) with ⟨k, hk⟩
  refine ⟨k, ?_⟩
  unfold succIdx
  rw [get?_eq_some_getD hi]
  simp only [hm, ht, hk]

/-! ### The ideal marking relation and the final table -/

/-- The marking relation of the table-filling algorithm on state indices:
base marks separate a final from a non-final state, and a mark propagates to
a pair whose successors under some symbol form a distinct marked pair.
Symmetric by construction. -/
inductive Marked (d : DFA) (states : List String) : Nat → Nat → Prop
  | base : ∀ i j, i < states.length → j < states.length → i ≠ j →
      ¬ ((states.getD i "" ∈ d.final_states) ↔ (states.getD j "" ∈ d.final_states)) →
      Marked d states i j
  | step : ∀ i j sym a b, i ≠ j → sym ∈ d.alphabet →
      succIdx d states i sym = some a → succIdx d states j sym = some b → a ≠ b →
      Marked d states a b → Marked d states i j

theorem Marked.symm {d : DFA} {states : List String} {i j : Nat}
    (h : Marked d states i j) : Marked d states j i := by
  induction h with
  | base i j hi hj hij hf => exact Marked.base j i hj hi (Ne.symm hij) (fun hc => hf hc.symm)
  | step i j sym a b hij hsym hsa hsb hab _ ih =>
    exact Marked.step j i sym b a (Ne.symm hij) hsym hsb hsa (Ne.symm hab) ih

theorem Marked.ne {d : DFA} {states : List String} {i j : Nat}
    (h : Marked d states i j) : i ≠ j := by
  cases h with
  | base _ _ _ _ hij _ => exact hij
  | step _ _ _ _ _ hij _ _ _ _ _ => exact hij

theorem Marked.lt_length {d : DFA} {states : List String} {i j : Nat}
    (h : Marked d states i j) : i < states.length ∧ j < states.length := by
  cases h with
  | base _ _ hi hj _ _ => exact ⟨hi, hj⟩
  | step _ _ sym a b _ _ hsa hsb _ _ =>
    exact ⟨(succIdx_some_facts hsa).1, (succIdx_some_facts hsb).1⟩

/-- The canonical-pair form of a `Marked` fact. -/
theorem Marked.of_minmax {d : DFA} {states : List String} {i j : Nat} (hij : i ≠ j)
    (h : Marked d states (min i j) (max i j)) : Marked d states i j := by
  rcases Nat.le_total i j with hle | hle
  · rwa [Nat.min_eq_left hle, Nat.max_eq_right hle] at h
  · rw [Nat.min_eq_right hle, Nat.max_eq_left hle] at h
    exact h.symm

theorem Marked.to_minmax {d : DFA} {states : List String} {i j : Nat}
    (h : Marked d states i j) : Marked d states (min i j) (max i j) := by
  rcases Nat.le_total i j with hle | hle
  · rwa [Nat.min_eq_left hle, Nat.max_eq_right hle]
  · rw [Nat.min_eq_right hle, Nat.max_eq_left hle]
    exact h.symm

/-- The base table only marks `Marked` pairs. -/
theorem baseTable_sound (d : DFA) (states : List String) {i j : Nat}
    (h : baseTable states d.final_states i j = true) : Marked d states i j := by
  unfold baseTable at h
  simp only [Bool.and_eq_true, decide_eq_true_eq, bne_iff_ne, ne_eq,
    decide_eq_decide] at h
  rcases h with ⟨⟨hij, hj⟩, hf⟩
  exact Marked.base i j (Nat.lt_trans hij hj) hj (Nat.ne_of_lt hij) hf

/-- A table all of whose marks are `Marked` stays that way through one pair
update. -/
theorem processPair_sound (d : DFA) (states : List String) {T : Table} {ch : Bool}
    {ij : Nat × Nat} {res : Table × Bool}
    (hp : processPair d states (T, ch) ij = some res)
    (hS : ∀ a b, T a b = true → Marked d states a b) :
    ∀ a b, res.1 a b = true → Marked d states a b := by
  unfold processPair at hp
  by_cases hT : T ij.1 ij.2 = true
  · rw [if_pos hT] at hp
    cases hp
    exact hS
  · rw [if_neg hT] at hp
    cases hts : trySyms d states T ij.1 ij.2 d.alphabet with
    | none => simp only [hts] at hp; cases hp
    | some bb =>
      simp only [hts] at hp
      cases bb with
      | false =>
        cases hp
        exact hS
      | true =>
        cases hp
        intro a b hab
        rcases setT_eq_or hab with h1 | ⟨rfl, rfl⟩
        · exact hS a b h1
        · rcases (trySyms_eq_some_iff d states T ij.1 ij.2 d.alphabet true hts).mp rfl with
            ⟨sym, hsym, a', c', hsa, hsc, hac, hTac⟩
          have hij : ij.1 ≠ ij.2 := by
            intro hcontr
            rw [hcontr, hsc] at hsa
            exact hac (Option.some.inj hsa.symm)
          have hmarked : Marked d states a' c' :=
            Marked.of_minmax hac (hS _ _ hTac)
          exact Marked.step ij.1 ij.2 sym a' c' hij hsym hsa hsc hac hmarked

theorem passPairs_sound (d : DFA) (states : List String) :
    ∀ (l : List (Nat × Nat)) (T : Table) (ch : Bool) (res : Table × Bool),
      passPairs d states l (T, ch) = some res →
      (∀ a b, T a b = true → Marked d states a b) →
      ∀ a b, res.1 a b = true → Marked d states a b := by
  intro l
  induction l with
  | nil =>
    intro T ch res hp hS
    cases hp
    exact hS
  | cons ij rest ih =>
    intro T ch res hp hS
    simp only [passPairs] at hp
    cases hpp : processPair d states (T, ch) ij with
    | none => simp only [hpp] at hp; cases hp
    | some acc1 =>
      simp only [hpp] at hp
      obtain ⟨T1, ch1⟩ := acc1
      exact ih T1 ch1 res hp (processPair_sound d states hpp hS)

theorem closure_sound (d : DFA) (states : List String) :
    ∀ (fuel : Nat) (T T' : Table),
      closure d states fuel T = some T' →
      (∀ a b, T a b = true → Marked d states a b) →
      ∀ a b, T' a b = true → Marked d states a b := by
  intro fuel
  induction fuel with
  | zero =>
    intro T T' hcl hS
    cases hcl
    exact hS
  | succ f ih =>
    intro T T' hcl hS
    simp only [closure] at hcl
    cases hop : onePass d states T with
    | none => simp only [hop] at hcl; cases hcl
    | some r =>
      obtain ⟨T1, ch1⟩ := r
      simp only [hop] at hcl
      have hS1 : ∀ a b, T1 a b = true → Marked d states a b :=
        passPairs_sound d states (pairList states.length) T false (T1, ch1) hop hS
      cases ch1 with
      | true =>
        simp only [if_true] at hcl
        exact ih T1 T' hcl hS1
      | false =>
        simp only [Bool.false_eq_true, if_false] at hcl
        cases hcl
        exact hS1

theorem closure_mono (d : DFA) (states : List String) :
    ∀ (fuel : Nat) (T T' : Table), closure d states fuel T = some T' →
      ∀ a b, T a b = true → T' a b = true := by
  intro fuel
  induction fuel with
  | zero =>
    intro T T' hcl
    cases hcl
    exact fun _ _ h => h
  | succ f ih =>
    intro T T' hcl
    simp only [closure] at hcl
    cases hop : onePass d states T with
    | none => simp only [hop] at hcl; cases hcl
    | some r =>
      obtain ⟨T1, ch1⟩ := r
      simp only [hop] at hcl
      have h1 := (passPairs_spec d states (pairList states.length) T false (T1, ch1) hop).1
      cases ch1 with
      | true =>
        simp only [if_true] at hcl
        exact fun a b h => ih T1 T' hcl a b (h1 a b h)
      | false =>
        simp only [Bool.false_eq_true, if_false] at hcl
        cases hcl
        exact h1

theorem trySyms_false_forall (d : DFA) (states : List String) (T : Table) (i j : Nat) :
    ∀ l, trySyms d states T i j l = some false →
      ∀ sym ∈ l, ∃ a c, succIdx d states i sym = some a ∧ succIdx d states j sym = some c ∧
        (a = c ∨ T (min a c) (max a c) = false) := by
  intro l
  induction l with
  | nil => intro _ sym hmem; cases hmem
  | cons sym0 rest ih =>
    intro h sym hmem
    simp only [trySyms] at h
    cases hsa : succIdx d states i sym0 with
    | none => simp only [hsa] at h; cases h
    | some a =>
      simp only [hsa] at h
      cases hsc : succIdx d states j sym0 with
      | none => simp only [hsc] at h; cases h
      | some c =>
        simp only [hsc] at h
        by_cases hcond : min a c ≠ max a c ∧ T (min a c) (max a c) = true
        · rw [if_pos hcond] at h
          cases h
        · rw [if_neg hcond] at h
          rcases List.mem_cons.mp hmem with rfl | hmem'
          · refine ⟨a, c, hsa, hsc, ?_⟩
            by_cases hac : a = c
            · exact Or.inl hac
            · right
              cases hT : T (min a c) (max a c) with
              | false => rfl
              | true => exact absurd ⟨(min_ne_max_iff a c).mpr hac, hT⟩ hcond
          · exact ih h sym hmem'

/-- At a pass fixpoint, an unmarked canonical pair has, for every symbol,
well-defined successors that form an identical or unmarked pair. -/
theorem fixpoint_pair_data (d : DFA) (states : List String) (T : Table)
    (hfix : onePass d states T = some (T, false)) {i j : Nat}
    (hi : i < states.length) (hj : j < states.length) (hij : i ≠ j)
    (hT : T (min i j) (max i j) = false) :
    ∀ sym ∈ d.alphabet, ∃ a c, succIdx d states i sym = some a ∧
      succIdx d states j sym = some c ∧ (a = c ∨ T (min a c) (max a c) = false) := by
  have hnc := (passPairs_no_change d states (pairList states.length) T (T, false) hfix rfl).2
  rcases Nat.lt_or_ge i j with hlt | hge
  · have hmem : (i, j) ∈ pairList states.length := mem_pairList.mpr ⟨hlt, hj⟩
    rw [Nat.min_eq_left (Nat.le_of_lt hlt), Nat.max_eq_right (Nat.le_of_lt hlt)] at hT
    rcases hnc (i, j) hmem with h1 | h1
    · rw [hT] at h1
      cases h1
    · exact trySyms_false_forall d states T i j d.alphabet h1
  · have hlt : j < i := Nat.lt_of_le_of_ne hge (Ne.symm hij)
    have hmem : (j, i) ∈ pairList states.length := mem_pairList.mpr ⟨hlt, hi⟩
    rw [Nat.min_eq_right (Nat.le_of_lt hlt), Nat.max_eq_left (Nat.le_of_lt hlt)] at hT
    rcases hnc (j, i) hmem with h1 | h1
    · rw [hT] at h1
      cases h1
    · intro sym hsym
      rcases trySyms_false_forall d states T j i d.alphabet h1 sym hsym with ⟨a, c, h2, h3, h4⟩
      refine ⟨c, a, h3, h2, ?_⟩
      rcases h4 with h4 | h4
      · exact Or.inl h4.symm
      · right
        rwa [Nat.min_comm, Nat.max_comm]

/-- Completeness of the final table: every `Marked` pair is marked in a
table that contains the base marks and is a pass fixpoint. -/
theorem marked_complete (d : DFA) (states : List String) (T : Table)
    (hbase : ∀ i j, baseTable states d.final_states i j = true → T i j = true)
    (hfix : onePass d states T = some (T, false)) :
    ∀ {i j}, Marked d states i j → T (min i j) (max i j) = true := by
  intro i j hM
  induction hM with
  | base i j hi hj hij hf =>
    apply hbase
    unfold baseTable
    simp only [Bool.and_eq_true, decide_eq_true_eq, bne_iff_ne, ne_eq, decide_eq_decide]
    rcases Nat.lt_or_ge i j with hlt | hge
    · rw [Nat.min_eq_left (Nat.le_of_lt hlt), Nat.max_eq_right (Nat.le_of_lt hlt)]
      exact ⟨⟨hlt, hj⟩, hf⟩
    · have hlt : j < i := Nat.lt_of_le_of_ne hge (Ne.symm hij)
      rw [Nat.min_eq_right (Nat.le_of_lt hlt), Nat.max_eq_left (Nat.le_of_lt hlt)]
      exact ⟨⟨hlt, hi⟩, fun hc => hf hc.symm⟩
  | step i j sym a b hij hsym hsa hsb hab _ ih =>
    cases hT : T (min i j) (max i j) with
    | true => rfl
    | false =>
      exfalso
      have hi := (succIdx_some_facts hsa).1
      have hj := (succIdx_some_facts hsb).1
      rcases fixpoint_pair_data d states T hfix hi hj hij hT sym hsym with ⟨a', c', h1, h2, h3⟩
      have ha : a' = a := Option.some.inj (h1.symm.trans hsa)
      have hc : c' = b := Option.some.inj (h2.symm.trans hsb)
      rw [ha, hc] at h3
      rcases h3 with h3 | h3
      · exact hab h3
      · rw [ih] at h3
        cases h3

/-- The Euclidean property of the marking relation at a sound, base-complete
pass fixpoint: a marked pair separates every third state from one of its two
members.  This is what makes "unmarked" transitive, and the greedy grouping
of Step 5 correct. -/
theorem marked_euclid (d : DFA) (states : List String) (T : Table)
    (hS : ∀ a b, T a b = true → Marked d states a b)
    (hbase : ∀ i j, baseTable states d.final_states i j = true → T i j = true)
    (hfix : onePass d states T = some (T, false)) :
    ∀ {i k}, Marked d states i k → ∀ j, j < states.length →
      Marked d states i j ∨ Marked d states j k := by
  intro i k hM
  induction hM with
  | base i k hi hk hik hf =>
    intro j hj
    by_cases hd : ((states.getD i "" ∈ d.final_states) ↔ (states.getD j "" ∈ d.final_states))
    · right
      refine Marked.base j k hj hk ?_ ?_
      · intro hjk
        subst hjk
        exact hf hd
      · intro hc
        exact hf (hd.trans hc)
    · left
      refine Marked.base i j hi hj ?_ hd
      intro hij
      subst hij
      exact hd Iff.rfl
  | step i k sym a b hik hsym hsa hsb hab hM ih =>
    intro j hj
    by_cases hij : i = j
    · right
      rw [← hij]
      exact Marked.step i k sym a b hik hsym hsa hsb hab hM
    · by_cases hjk : j = k
      · left
        rw [hjk]
        exact Marked.step i k sym a b hik hsym hsa hsb hab hM
      · cases hTij : T (min i j) (max i j) with
        | true => exact Or.inl (Marked.of_minmax hij (hS _ _ hTij))
        | false =>
          cases hTjk : T (min j k) (max j k) with
          | true => exact Or.inr (Marked.of_minmax hjk (hS _ _ hTjk))
          | false =>
            exfalso
            have hi := (succIdx_some_facts hsa).1
            have hk := (succIdx_some_facts hsb).1
            rcases fixpoint_pair_data d states T hfix hi hj hij hTij sym hsym with
              ⟨a1, c1, h1, h2, h3⟩
            have ha1 : a1 = a := Option.some.inj (h1.symm.trans hsa)
            rw [ha1] at h3
            rcases fixpoint_pair_data d states T hfix hj hk hjk hTjk sym hsym with
              ⟨c2, b2, h4, h5, h6⟩
            have hc12 : c2 = c1 := Option.some.inj (h4.symm.trans h2)
            have hb2 : b2 = b := Option.some.inj (h5.symm.trans hsb)
            rw [hc12, hb2] at h6
            have hc1n : c1 < states.length := (succIdx_some_facts h2).2.1
            rcases ih c1 hc1n with hM1 | hM2
            · have hane : a ≠ c1 := hM1.ne
              have hcompl := marked_complete d states T hbase hfix hM1
              rcases h3 with h3 | h3
              · exact hane h3
              · rw [hcompl] at h3
                cases h3
            · have hcne : c1 ≠ b := hM2.ne
              have hcompl := marked_complete d states T hbase hfix hM2
              rcases h6 with h6 | h6
              · exact hcne h6
              · rw [hcompl] at h6
                cases h6

/-- The key transitivity property of the final table, in the form the
Step-5 grouping needs: if the starter `b` is separated from `i` but not from
`j`, then `i` and `j` are separated. -/
theorem table_K (d : DFA) (states : List String) (T : Table)
    (hS : ∀ a b, T a b = true → Marked d states a b)
    (hbase : ∀ i j, baseTable states d.final_states i j = true → T i j = true)
    (hfix : onePass d states T = some (T, false)) :
    ∀ b i j, b < states.length → i < states.length → j < states.length →
      b < i → b < j → i < j → T b i = true → T b j = false → T i j = true := by
  intro b i j _ _ hj hbi hbj hij hTbi hTbj
  have hMbi : Marked d states b i := hS _ _ hTbi
  rcases marked_euclid d states T hS hbase hfix hMbi j hj with hM | hM
  · exfalso
    have hc := marked_complete d states T hbase hfix hM
    rw [Nat.min_eq_left (Nat.le_of_lt hbj), Nat.max_eq_right (Nat.le_of_lt hbj)] at hc
    rw [hc] at hTbj
    cases hTbj
  · have hc := marked_complete d states T hbase hfix hM.symm
    rwa [Nat.min_eq_left (Nat.le_of_lt hij), Nat.max_eq_right (Nat.le_of_lt hij)] at hc

/-! ### The Step-5 grouping -/

theorem mem_blockOf {states : List String} {T : Table} {i : Nat} {s : String}
    (hi : i < states.length) :
    s ∈ blockOf states T i ↔
      s = states.getD i "" ∨
        ∃ j, i < j ∧ j < states.length ∧ T i j = false ∧ s = states.getD j "" := by
  unfold blockOf
  rw [List.mem_cons]
  simp only [List.mem_filterMap, List.mem_filter, List.mem_range'_1, decide_eq_true_eq]
  constructor
  · rintro (rfl | ⟨j, ⟨⟨hj1, hj2⟩, hTij⟩, hget⟩)
    · exact Or.inl rfl
    · right
      have hjlen : j < states.length := by omega
      have hs : s = states.getD j "" := by
        rw [get?_eq_some_getD hjlen] at hget
        exact (Option.some.inj hget).symm
      refine ⟨j, by omega, hjlen, ?_, hs⟩
      cases hT : T i j with
      | false => rfl
      | true => exact absurd hT hTij
  · rintro (rfl | ⟨j, hij, hjlen, hTij, rfl⟩)
    · exact Or.inl rfl
    · right
      refine ⟨j, ⟨⟨by omega, by omega⟩, by simp [hTij]⟩, get?_eq_some_getD hjlen⟩

theorem bpStep_eq (states : List String) (T : Table) (vis : List String)
    (parts : List (List String)) (i : Nat) (hi : i < states.length) :
    bpStep states T (vis, parts) i =
      if states.getD i "" ∈ vis then (vis, parts)
      else (vis ++ blockOf states T i, parts ++ [blockOf states T i]) := by
  unfold bpStep
  rw [get?_eq_some_getD hi]

/-- The grouping fold covers every state, keeps the visited set equal to the
union of the formed blocks, and forms only `blockOf` blocks. -/
theorem bp_fold_cover (states : List String) (T : Table) :
    ∀ (len i : Nat) (vis : List String) (parts : List (List String)),
      i + len = states.length →
      (∀ k, k < i → states.getD k "" ∈ vis) →
      (∀ s, s ∈ vis ↔ ∃ p ∈ parts, s ∈ p) →
      (∀ p ∈ parts, ∃ b, b < states.length ∧ p = blockOf states T b) →
      (∀ k, k < states.length →
        states.getD k "" ∈ ((List.range' i len).foldl (bpStep states T) (vis, parts)).1) ∧
      (∀ s, s ∈ ((List.range' i len).foldl (bpStep states T) (vis, parts)).1 ↔
        ∃ p ∈ ((List.range' i len).foldl (bpStep states T) (vis, parts)).2, s ∈ p) ∧
      (∀ p ∈ ((List.range' i len).foldl (bpStep states T) (vis, parts)).2,
        ∃ b, b < states.length ∧ p = blockOf states T b) := by
  intro len
  induction len with
  | zero =>
    intro i vis parts hsum hcover hvis hparts
    simp only [List.range', List.foldl_nil]
    exact ⟨fun k hk => hcover k (by omega), hvis, hparts⟩
  | succ len ih =>
    intro i vis parts hsum hcover hvis hparts
    rw [List.range'_succ]
    simp only [List.foldl_cons]
    have hi : i < states.length := by omega
    rw [bpStep_eq states T vis parts i hi]
    by_cases hvisit : states.getD i "" ∈ vis
    · rw [if_pos hvisit]
      apply ih (i + 1) vis parts (by omega) ?_ hvis hparts
      intro k hk
      by_cases hki : k = i
      · rw [hki]
        exact hvisit
      · exact hcover k (by omega)
    · rw [if_neg hvisit]
      apply ih (i + 1) _ _ (by omega) ?_ ?_ ?_
      · intro k hk
        by_cases hki : k = i
        · subst hki
          exact List.mem_append_right _ (List.mem_cons_self _ _)
        · exact List.mem_append_left _ (hcover k (by omega))
      · intro s
        rw [List.mem_append, hvis]
        constructor
        · rintro (⟨p, hp, hsp⟩ | hsb)
          · exact ⟨p, List.mem_append_left _ hp, hsp⟩
          · exact ⟨blockOf states T i, List.mem_append_right _ (List.mem_singleton.mpr rfl), hsb⟩
        · rintro ⟨p, hp, hsp⟩
          rcases List.mem_append.mp hp with hp' | hp'
          · exact Or.inl ⟨p, hp', hsp⟩
          · rcases List.mem_singleton.mp hp' with rfl
            exact Or.inr hsp
      · intro p hp
        rcases List.mem_append.mp hp with hp' | hp'
        · exact hparts p hp'
        · rcases List.mem_singleton.mp hp' with rfl
          exact ⟨i, hi, rfl⟩

/-- Under the key transitivity property of the final table, the blocks the
grouping fold forms are pairwise disjoint — the greedy Step-5 loop never
puts one state into two blocks. -/
theorem bp_fold_disjoint (states : List String) (T : Table) (hnd : states.Nodup)
    (HK : ∀ b i j, b < states.length → i < states.length → j < states.length →
      b < i → b < j → i < j → T b i = true → T b j = false → T i j = true) :
    ∀ (len i : Nat) (vis : List String) (parts : List (List String)),
      i + len = states.length →
      (∀ s, s ∈ vis ↔ ∃ p ∈ parts, s ∈ p) →
      (∀ p ∈ parts, ∃ b, b < i ∧ p = blockOf states T b) →
      List.Pairwise (fun p q => ∀ s, s ∈ p → s ∈ q → False) parts →
      List.Pairwise (fun p q => ∀ s, s ∈ p → s ∈ q → False)
        ((List.range' i len).foldl (bpStep states T) (vis, parts)).2 := by
  intro len
  induction len with
  | zero =>
    intro i vis parts _ _ _ hdisj
    simpa using hdisj
  | succ len ih =>
    intro i vis parts hsum hvis hparts hdisj
    rw [List.range'_succ]
    simp only [List.foldl_cons]
    have hi : i < states.length := by omega
    rw [bpStep_eq states T vis parts i hi]
    by_cases hvisit : states.getD i "" ∈ vis
    · rw [if_pos hvisit]
      apply ih (i + 1) vis parts (by omega) hvis ?_ hdisj
      intro p hp
      rcases hparts p hp with ⟨b, hb, heq⟩
      exact ⟨b, by omega, heq⟩
    · rw [if_neg hvisit]
      apply ih (i + 1) _ _ (by omega) ?_ ?_ ?_
      · intro s
        rw [List.mem_append, hvis]
        constructor
        · rintro (⟨p, hp, hsp⟩ | hsb)
          · exact ⟨p, List.mem_append_left _ hp, hsp⟩
          · exact ⟨blockOf states T i, List.mem_append_right _ (List.mem_singleton.mpr rfl), hsb⟩
        · rintro ⟨p, hp, hsp⟩
          rcases List.mem_append.mp hp with hp' | hp'
          · exact Or.inl ⟨p, hp', hsp⟩
          · rcases List.mem_singleton.mp hp' with rfl
            exact Or.inr hsp
      · intro p hp
        rcases List.mem_append.mp hp with hp' | hp'
        · rcases hparts p hp' with ⟨b, hb, heq⟩
          exact ⟨b, by omega, heq⟩
        · rcases List.mem_singleton.mp hp' with rfl
          exact ⟨i, by omega, rfl⟩
      · rw [List.pairwise_append]
        refine ⟨hdisj, List.pairwise_singleton _ _, ?_⟩
        intro p hp q hq s hsp hsq
        rcases List.mem_singleton.mp hq with rfl
        rcases hparts p hp with ⟨b, hbi, rfl⟩
        have hb : b < states.length := by omega
        have hTbi : T b i = true := by
          cases hTbi : T b i with
          | true => rfl
          | false =>
            exfalso
            apply hvisit
            rw [hvis]
            refine ⟨blockOf states T b, hp, ?_⟩
            rw [mem_blockOf hb]
            exact Or.inr ⟨i, hbi, hi, hTbi, rfl⟩
        rcases (mem_blockOf hb).mp hsp with rfl | ⟨j1, hbj1, hj1n, hTbj1, rfl⟩
        · rcases (mem_blockOf hi).mp hsq with heq | ⟨j2, hij2, hj2n, hTij2, heq⟩
          · exact absurd (getD_inj hnd hb hi heq) (Nat.ne_of_lt hbi)
          · have hbj2 := getD_inj hnd hb hj2n heq
            omega
        · rcases (mem_blockOf hi).mp hsq with heq | ⟨j2, hij2, hj2n, hTij2, heq⟩
          · have hj1i := getD_inj hnd hj1n hi heq
            rw [hj1i] at hTbj1
            rw [hTbj1] at hTbi
            cases hTbi
          · have hj12 := getD_inj hnd hj1n hj2n heq
            rw [hj12] at hTbj1 hbj1
            have := HK b i j2 hb hi hj2n hbi (by omega) hij2 hTbi hTbj1
            rw [this] at hTij2
            cases hTij2

theorem buildPartitions_cover (states : List String) (T : Table) :
    (∀ k, k < states.length →
      ∃ p ∈ buildPartitions states T, states.getD k "" ∈ p) ∧
    (∀ p ∈ buildPartitions states T, ∃ b, b < states.length ∧ p = blockOf states T b) := by
  have h := bp_fold_cover states T states.length 0 [] [] (by omega)
    (fun k hk => absurd hk (Nat.not_lt_zero k))
    (by intro s; simp)
    (by intro p hp; cases hp)
  unfold buildPartitions
  rw [List.range_eq_range']
  exact ⟨fun k hk => (h.2.1 _).mp (h.1 k hk), h.2.2⟩

theorem buildPartitions_disjoint (states : List String) (T : Table) (hnd : states.Nodup)
    (HK : ∀ b i j, b < states.length → i < states.length → j < states.length →
      b < i → b < j → i < j → T b i = true → T b j = false → T i j = true) :
    List.Pairwise (fun p q => ∀ s, s ∈ p → s ∈ q → False) (buildPartitions states T) := by
  unfold buildPartitions
  rw [List.range_eq_range']
  exact bp_fold_disjoint states T hnd HK states.length 0 [] [] (by omega)
    (by intro s; simp) (by intro p hp; cases hp) List.Pairwise.nil

theorem pairwise_disjoint_getD_unique {P : List (List String)}
    (h : List.Pairwise (fun p q => ∀ s, s ∈ p → s ∈ q → False) P)
    {k1 k2 : Nat} {s : String} (hk1 : k1 < P.length) (hk2 : k2 < P.length)
    (h1 : s ∈ P.getD k1 []) (h2 : s ∈ P.getD k2 []) : k1 = k2 := by
  have conv : ∀ (k : Nat) (hk : k < P.length), P.getD k [] = P[k] := by
    intro k hk
    rw [List.getD_eq_getElem?_getD, List.getElem?_eq_getElem hk]
    rfl
  by_contra hne
  rcases Nat.lt_or_ge k1 k2 with hlt | hge
  · exact (List.pairwise_iff_getElem.mp h) k1 k2 hk1 hk2 hlt s
      (conv k1 hk1 ▸ h1) (conv k2 hk2 ▸ h2)
  · have hlt : k2 < k1 := Nat.lt_of_le_of_ne hge (Ne.symm hne)
    exact (List.pairwise_iff_getElem.mp h) k2 k1 hk2 hk1 hlt s
      (conv k2 hk2 ▸ h2) (conv k1 hk1 ▸ h1)

theorem mem_getD_index {l : List String} {s : String} (h : s ∈ l) :
    ∃ k, k < l.length ∧ l.getD k "" = s := by
  rcases List.mem_iff_getElem.mp h with ⟨k, hk, he⟩
  refine ⟨k, hk, ?_⟩
  rw [List.getD_eq_getElem?_getD, List.getElem?_eq_getElem hk]
  exact he

theorem opt_getD_eq_some {α : Type} (o : Option α) (dflt : α) (h : o.isSome = true) :
    o = some (o.getD dflt) := by
  cases o with
  | none => cases h
  | some v => rfl

/-- **C3**: once the closure loop of `minimize` has terminated with final
table `T`, the Step-5 grouping on the pruned automaton's sorted state list
produces blocks that are all non-empty, whose union is exactly the (pruned,
i.e. reachable) state set, and that are pairwise disjoint — every reachable
state lies in exactly one block, although the greedy grouping never
re-checks pairs among already-grouped states. -/
theorem claim3_partition_blocks (d pruned : DFA) (T : Table)
    (hp : remove_unreachable_states d = some pruned)
    (hcl : closure pruned (sortStrings pruned.states.dedup)
        ((sortStrings pruned.states.dedup).length *
          (sortStrings pruned.states.dedup).length + 1)
        (baseTable (sortStrings pruned.states.dedup) pruned.final_states) = some T) :
    (∀ p ∈ buildPartitions (sortStrings pruned.states.dedup) T, p ≠ []) ∧
    (∀ s, (∃ p ∈ buildPartitions (sortStrings pruned.states.dedup) T, s ∈ p) ↔
      s ∈ pruned.states) ∧
    (∀ k1 k2 s, k1 < (buildPartitions (sortStrings pruned.states.dedup) T).length →
      k2 < (buildPartitions (sortStrings pruned.states.dedup) T).length →
      s ∈ (buildPartitions (sortStrings pruned.states.dedup) T).getD k1 [] →
      s ∈ (buildPartitions (sortStrings pruned.states.dedup) T).getD k2 [] → k1 = k2) := by
  have hnd : (sortStrings pruned.states.dedup).Nodup :=
    nodup_sortStrings pruned.states.nodup_dedup
  have hS := closure_sound pruned (sortStrings pruned.states.dedup) _ _ T hcl
    (fun a b h => baseTable_sound pruned (sortStrings pruned.states.dedup) h)
  have hbase := closure_mono pruned (sortStrings pruned.states.dedup) _ _ T hcl
  have hfix := closure_fixpoint pruned (sortStrings pruned.states.dedup) _ _ T
    (by
      have h1 := pairList_length_le (sortStrings pruned.states.dedup).length
      omega) hcl
  have HK := table_K pruned (sortStrings pruned.states.dedup) T hS hbase hfix
  have hcov := buildPartitions_cover (sortStrings pruned.states.dedup) T
  have hdisj := buildPartitions_disjoint (sortStrings pruned.states.dedup) T hnd HK
  refine ⟨?_, ?_, ?_⟩
  · intro p hpmem
    rcases hcov.2 p hpmem with ⟨b, hb, rfl⟩
    simp [blockOf]
  · intro s
    constructor
    · rintro ⟨p, hpmem, hsp⟩
      rcases hcov.2 p hpmem with ⟨b, hb, rfl⟩
      have hmem : s ∈ sortStrings pruned.states.dedup := by
        rcases (mem_blockOf hb).mp hsp with rfl | ⟨j, _, hj, _, rfl⟩
        · exact getD_mem_of_lt hb
        · exact getD_mem_of_lt hj
      rw [mem_sortStrings, List.mem_dedup] at hmem
      exact hmem
    · intro hs
      have hs' : s ∈ sortStrings pruned.states.dedup := by
        rw [mem_sortStrings, List.mem_dedup]
        exact hs
      rcases mem_getD_index hs' with ⟨k, hk, hkeq⟩
      rcases hcov.1 k hk with ⟨p, hpmem, hmem⟩
      exact ⟨p, hpmem, hkeq ▸ hmem⟩
  · intro k1 k2 s hk1 hk2 h1 h2
    exact pairwise_disjoint_getD_unique hdisj hk1 hk2 h1 h2

/-! ### Success and validity of the whole `minimize` pipeline -/

/-- A validated automaton all of whose states have non-empty names prunes
successfully to a validated automaton over the reachable states. -/
theorem prune_valid (d : DFA) (hv : (is_valid d).1 = true)
    (hne : ∀ s ∈ d.states, s ≠ "") :
    ∃ pruned, remove_unreachable_states d = some pruned ∧ ValidProp pruned ∧
      (∀ s ∈ pruned.states, s ≠ "") ∧ (∀ s ∈ pruned.states, s ∈ reachableSet d) := by
  rw [is_valid_true_iff] at hv
  have hrs_states : ∀ s ∈ reachableSet d, s ∈ d.states := fun s hs =>
    reachskip_mem_states hv (reachableSet_sound d s hs)
  rcases buildTrans_spec d.transitions (reachableSet d)
      (fun s hs => by
        rcases hv.2.2.2 s (hrs_states s hs) with ⟨m, hm, -⟩
        exact ⟨m, hm⟩) with ⟨nt, hnt, hntspec⟩
  have hstart_r := start_mem_reachableSet d
  have hstart_mem : d.start_state ∈ d.states.filter (fun s => decide (s ∈ reachableSet d)) :=
    List.mem_filter.mpr ⟨hv.2.1, by simpa using hstart_r⟩
  refine ⟨⟨d.states.filter (fun s => s ∈ reachableSet d), d.alphabet, nt, d.start_state,
    d.final_states.filter (fun s => s ∈ reachableSet d)⟩, ?_, ?_, ?_, ?_⟩
  · unfold remove_unreachable_states
    rw [hnt]
  · refine ⟨List.ne_nil_of_mem hstart_mem, hstart_mem, ?_, ?_⟩
    · intro t ht
      rcases List.mem_filter.mp ht with ⟨h1, h2⟩
      exact List.mem_filter.mpr ⟨hv.2.2.1 t h1, h2⟩
    · intro s hs
      rcases List.mem_filter.mp hs with ⟨h1, h2⟩
      have h2' : s ∈ reachableSet d := by simpa using h2
      rcases hv.2.2.2 s h1 with ⟨m, hm, hsyms⟩
      refine ⟨m, by rw [hntspec s, if_pos h2']; exact hm, ?_⟩
      intro sym hsym
      rcases hsyms sym hsym with ⟨t, ht, htmem⟩
      refine ⟨t, ht, List.mem_filter.mpr ⟨htmem, ?_⟩⟩
      have htr : t ∈ reachableSet d :=
        reachableSet_closed d s h2' sym hsym m t hm ht (hne t htmem)
      simpa using htr
  · intro s hs
    exact hne s (List.mem_filter.mp hs).1
  · intro s hs
    have := (List.mem_filter.mp hs).2
    simpa using this

theorem lastIdxMem_lt {s : String} :
    ∀ {P : List (List String)} {k : Nat}, lastIdxMem s P = some k → k < P.length := by
  intro P
  induction P with
  | nil => intro k h; cases h
  | cons p ps ih =>
    intro k h
    simp only [lastIdxMem] at h
    cases hps : lastIdxMem s ps with
    | some k' =>
      rw [hps] at h
      cases h
      exact Nat.succ_lt_succ (ih hps)
    | none =>
      rw [hps] at h
      by_cases hp : s ∈ p
      · rw [if_pos hp] at h
        cases h
        exact Nat.succ_pos _
      · rw [if_neg hp] at h
        cases h

theorem lastIdxMem_none {s : String} :
    ∀ {P : List (List String)}, lastIdxMem s P = none → ∀ p ∈ P, s ∉ p := by
  intro P
  induction P with
  | nil => intro _ p hp; cases hp
  | cons p0 ps ih =>
    intro h p hp
    simp only [lastIdxMem] at h
    cases hps : lastIdxMem s ps with
    | some k' => rw [hps] at h; cases h
    | none =>
      rw [hps] at h
      by_cases hp0 : s ∈ p0
      · rw [if_pos hp0] at h
        cases h
      · rw [if_neg hp0] at h
        rcases List.mem_cons.mp hp with rfl | hp'
        · exact hp0
        · exact ih hps p hp'

theorem lastIdxMem_isSome_of_mem {s : String} {P : List (List String)}
    (h : ∃ p ∈ P, s ∈ p) : ∃ k, lastIdxMem s P = some k := by
  cases hP : lastIdxMem s P with
  | some k => exact ⟨k, rfl⟩
  | none =>
    rcases h with ⟨p, hp, hsp⟩
    exact absurd hsp (lastIdxMem_none hP p hp)

theorem trySyms_total (d : DFA) (hv : ValidProp d) (states : List String)
    (hmem : ∀ s, s ∈ states ↔ s ∈ d.states) (T : Table) (i j : Nat)
    (hi : i < states.length) (hj : j < states.length) :
    ∀ l, (∀ sym ∈ l, sym ∈ d.alphabet) → ∃ b, trySyms d states T i j l = some b := by
  intro l
  induction l with
  | nil => intro _; exact ⟨false, rfl⟩
  | cons sym rest ih =>
    intro hall
    rcases succIdx_total hv hmem hi (hall sym (List.mem_cons_self _ _)) with ⟨a, ha⟩
    rcases succIdx_total hv hmem hj (hall sym (List.mem_cons_self _ _)) with ⟨c, hc⟩
    rcases ih (fun sy hsy => hall sy (List.mem_cons_of_mem _ hsy)) with ⟨b, hb⟩
    by_cases hcond : min a c ≠ max a c ∧ T (min a c) (max a c) = true
    · refine ⟨true, ?_⟩
      simp only [trySyms, ha, hc]
      rw [if_pos hcond]
    · refine ⟨b, ?_⟩
      simp only [trySyms, ha, hc]
      rw [if_neg hcond]
      exact hb

theorem passPairs_total (d : DFA) (hv : ValidProp d) (states : List String)
    (hmem : ∀ s, s ∈ states ↔ s ∈ d.states) :
    ∀ (l : List (Nat × Nat)) (acc : Table × Bool),
      (∀ ij ∈ l, ij.1 < states.length ∧ ij.2 < states.length) →
      ∃ res, passPairs d states l acc = some res := by
  intro l
  induction l with
  | nil => intro acc _; exact ⟨acc, rfl⟩
  | cons ij rest ih =>
    intro acc hall
    obtain ⟨T, ch⟩ := acc
    rcases hall ij (List.mem_cons_self _ _) with ⟨hi, hj⟩
    have hstep : ∃ acc1, processPair d states (T, ch) ij = some acc1 := by
      unfold processPair
      by_cases hT : T ij.1 ij.2 = true
      · rw [if_pos hT]
        exact ⟨(T, ch), rfl⟩
      · rw [if_neg hT]
        rcases trySyms_total d hv states hmem T ij.1 ij.2 hi hj d.alphabet
          (fun _ h => h) with ⟨b, hb⟩
        rw [hb]
        cases b with
        | true => exact ⟨(setT T ij.1 ij.2, true), rfl⟩
        | false => exact ⟨(T, ch), rfl⟩
    rcases hstep with ⟨acc1, hacc1⟩
    rcases ih acc1 (fun ij' h => hall ij' (List.mem_cons_of_mem _ h)) with ⟨res, hres⟩
    refine ⟨res, ?_⟩
    simp only [passPairs, hacc1]
    exact hres

theorem closure_total (d : DFA) (hv : ValidProp d) (states : List String)
    (hmem : ∀ s, s ∈ states ↔ s ∈ d.states) :
    ∀ (fuel : Nat) (T : Table), ∃ T', closure d states fuel T = some T' := by
  intro fuel
  induction fuel with
  | zero => intro T; exact ⟨T, rfl⟩
  | succ f ih =>
    intro T
    have hop : ∃ res, onePass d states T = some res :=
      passPairs_total d hv states hmem (pairList states.length) (T, false)
        (fun ij hij => by
          rcases mem_pairList.mp hij with ⟨h1, h2⟩
          exact ⟨Nat.lt_trans h1 h2, h2⟩)
    rcases hop with ⟨⟨T1, ch1⟩, hres⟩
    cases ch1 with
    | true =>
      rcases ih T1 with ⟨T', hT'⟩
      refine ⟨T', ?_⟩
      simp only [closure, hres, if_true]
      exact hT'
    | false =>
      refine ⟨T1, ?_⟩
      simp only [closure, hres, Bool.false_eq_true, if_false]

theorem newTransSyms_total_and_values (d : DFA) (hv : ValidProp d)
    (states : List String) (hmem : ∀ s, s ∈ states ↔ s ∈ d.states)
    (P : List (List String))
    (hcov : ∀ s ∈ states, ∃ p ∈ P, s ∈ p)
    (rep : String) (hrep : rep ∈ d.states) :
    ∀ l, (∀ sym ∈ l, sym ∈ d.alphabet) →
      ∃ syms, newTransSyms d P rep l = some syms ∧
        ∀ sym ∈ l, ∃ k, k < P.length ∧ assoc syms sym = some (qName k) := by
  intro l
  induction l with
  | nil => intro _; exact ⟨[], rfl, by simp⟩
  | cons sym rest ih =>
    intro hall
    rcases hv.2.2.2 rep hrep with ⟨m, hm, hsyms⟩
    rcases hsyms sym (hall sym (List.mem_cons_self _ _)) with ⟨t, ht, htmem⟩
    rcases lastIdxMem_isSome_of_mem (hcov t ((hmem t).mpr htmem)) with ⟨k, hk⟩
    rcases ih (fun sy hsy => hall sy (List.mem_cons_of_mem _ hsy)) with ⟨syms', hsyms', hvals⟩
    refine ⟨(sym, qName k) :: syms', ?_, ?_⟩
    · simp only [newTransSyms, hm, ht, hk, hsyms']
    · intro sy hsy
      by_cases hss : sym = sy
      · exact ⟨k, lastIdxMem_lt hk, by simp [assoc, hss]⟩
      · rcases List.mem_cons.mp hsy with rfl | hsy'
        · exact absurd rfl hss
        · rcases hvals sy hsy' with ⟨k', hk', hval⟩
          exact ⟨k', hk', by simp [assoc, hss, hval]⟩

theorem newTransBlocks_total (d : DFA) (hv : ValidProp d)
    (states : List String) (hmem : ∀ s, s ∈ states ↔ s ∈ d.states)
    (P : List (List String))
    (hcov : ∀ s ∈ states, ∃ p ∈ P, s ∈ p) :
    ∀ (l : List (List String)) (i0 : Nat),
      (∀ p ∈ l, p ≠ [] ∧ ∀ s ∈ p, s ∈ states) →
      ∃ nt, newTransBlocks d P l i0 = some nt ∧
        (∀ j, j < l.length → ∃ v, assoc nt (qName (i0 + j)) = some v) ∧
        (∀ e ∈ nt, ∀ sym ∈ d.alphabet, ∃ k, k < P.length ∧
          assoc e.2 sym = some (qName k)) := by
  intro l
  induction l with
  | nil =>
    intro i0 _
    refine ⟨[], rfl, ?_, by simp⟩
    intro j hj
    cases hj
  | cons p ps ih =>
    intro i0 hall
    rcases hall p (List.mem_cons_self _ _) with ⟨hpne, hpsub⟩
    obtain ⟨rep, L, prest⟩ := List.exists_cons_of_ne_nil hpne
    have hhead : p.head? = some rep := by rw [prest]; rfl
    have hrepmem : rep ∈ d.states := by
      apply (hmem rep).mp
      apply hpsub
      rw [prest]
      exact List.mem_cons_self _ _
    rcases newTransSyms_total_and_values d hv states hmem P hcov rep hrepmem d.alphabet
      (fun _ h => h) with ⟨syms, hsyms, hvals⟩
    rcases ih (i0 + 1) (fun q hq => hall q (List.mem_cons_of_mem _ hq)) with
      ⟨nt', hnt', hkeys, hentries⟩
    refine ⟨(qName i0, syms) :: nt', ?_, ?_, ?_⟩
    · simp only [newTransBlocks, hhead, hsyms, hnt']
    · intro j hj
      cases j with
      | zero =>
        refine ⟨syms, ?_⟩
        simp [assoc]
      | succ j' =>
        by_cases hq : qName i0 = qName (i0 + (j' + 1))
        · refine ⟨syms, ?_⟩
          simp [assoc, hq]
        · have hj' : j' < ps.length := by
            simpa using Nat.lt_of_succ_lt_succ (by simpa using hj)
          rcases hkeys j' hj' with ⟨v, hv'⟩
          refine ⟨v, ?_⟩
          have harith : i0 + 1 + j' = i0 + (j' + 1) := by omega
          rw [harith] at hv'
          simp [assoc, hq, hv']
    · intro e he sym hsym
      rcases List.mem_cons.mp he with rfl | he'
      · exact hvals sym hsym
      · exact hentries e he' sym hsym

/-- On a validated automaton, Steps 2–6 of `minimize` succeed and produce an
automaton that itself passes validation. -/
theorem minimizeCore_valid (dfa : DFA) (hv : ValidProp dfa) :
    ∃ m, minimizeCore dfa = some m ∧ (is_valid m).1 = true := by
  have hmem : ∀ s, s ∈ sortStrings dfa.states.dedup ↔ s ∈ dfa.states := by
    intro s
    rw [mem_sortStrings, List.mem_dedup]
  rcases closure_total dfa hv (sortStrings dfa.states.dedup) hmem
    ((sortStrings dfa.states.dedup).length * (sortStrings dfa.states.dedup).length + 1)
    (baseTable (sortStrings dfa.states.dedup) dfa.final_states) with ⟨T, hT⟩
  have hcov := buildPartitions_cover (sortStrings dfa.states.dedup) T
  have hcov' : ∀ s ∈ sortStrings dfa.states.dedup,
      ∃ p ∈ buildPartitions (sortStrings dfa.states.dedup) T, s ∈ p := by
    intro s hs
    rcases mem_getD_index hs with ⟨k, hk, hkeq⟩
    rcases hcov.1 k hk with ⟨p, hp, hmemp⟩
    exact ⟨p, hp, hkeq ▸ hmemp⟩
  have hstartmem : dfa.start_state ∈ sortStrings dfa.states.dedup := (hmem _).mpr hv.2.1
  rcases lastIdxMem_isSome_of_mem (hcov' _ hstartmem) with ⟨startIdx, hstart⟩
  have hblocks : ∀ p ∈ buildPartitions (sortStrings dfa.states.dedup) T,
      p ≠ [] ∧ ∀ s ∈ p, s ∈ sortStrings dfa.states.dedup := by
    intro p hp
    rcases hcov.2 p hp with ⟨b, hb, rfl⟩
    refine ⟨by simp [blockOf], ?_⟩
    intro s hs
    rcases (mem_blockOf hb).mp hs with rfl | ⟨j, _, hj, _, rfl⟩
    · exact getD_mem_of_lt hb
    · exact getD_mem_of_lt hj
  rcases newTransBlocks_total dfa hv (sortStrings dfa.states.dedup) hmem
    (buildPartitions (sortStrings dfa.states.dedup) T) hcov'
    (buildPartitions (sortStrings dfa.states.dedup) T) 0 hblocks with ⟨nt, hnt, hkeys, hentries⟩
  refine ⟨⟨((List.range (buildPartitions (sortStrings dfa.states.dedup) T).length).map
      qName).dedup,
    dfa.alphabet, nt, qName startIdx,
    (((List.range (buildPartitions (sortStrings dfa.states.dedup) T).length).filter
      (fun i => ((buildPartitions (sortStrings dfa.states.dedup) T).getD i []).any
        (fun s => decide (s ∈ dfa.final_states)))).map qName).dedup⟩, ?_, ?_⟩
  · unfold minimizeCore rebuild
    simp only [hT, hstart, hnt]
  · rw [is_valid_true_iff]
    have hslt := lastIdxMem_lt hstart
    have hstartstate : qName startIdx ∈
        ((List.range (buildPartitions (sortStrings dfa.states.dedup) T).length).map
          qName).dedup := by
      rw [List.mem_dedup]
      exact List.mem_map.mpr ⟨startIdx, List.mem_range.mpr hslt, rfl⟩
    refine ⟨List.ne_nil_of_mem hstartstate, hstartstate, ?_, ?_⟩
    · intro t ht
      rw [List.mem_dedup] at ht
      rcases List.mem_map.mp ht with ⟨i, hi, rfl⟩
      rcases List.mem_filter.mp hi with ⟨hi', -⟩
      rw [List.mem_dedup]
      exact List.mem_map.mpr ⟨i, hi', rfl⟩
    · intro s hs
      rw [List.mem_dedup] at hs
      rcases List.mem_map.mp hs with ⟨i, hi, rfl⟩
      have hilt := List.mem_range.mp hi
      rcases hkeys i hilt with ⟨v, hv'⟩
      rw [Nat.zero_add] at hv'
      refine ⟨v, hv', ?_⟩
      intro sym hsym
      have hventry : (qName i, v) ∈ nt := assoc_some_mem hv'
      rcases hentries (qName i, v) hventry sym hsym with ⟨k, hk, hval⟩
      refine ⟨qName k, hval, ?_⟩
      rw [List.mem_dedup]
      exact List.mem_map.mpr ⟨k, List.mem_range.mpr hk, rfl⟩

/-- **C9 (amended)**: for every automaton that passes validation and all of
whose state names are non-empty strings, `minimize` returns an automaton
that itself passes validation (its start state is one of its states, its
final states lie inside its state set, and its transition function is total
with targets inside its state set).  (The non-emptiness hypothesis is
forced by the counterexample: on `e1`, `minimize` raises instead of
returning an automaton.) -/
theorem claim9_minimize_output_valid (d : DFA) (hv : (is_valid d).1 = true)
    (hne : ∀ s ∈ d.states, s ≠ "") :
    ∃ m, minimize d = some m ∧ (is_valid m).1 = true := by
  rcases prune_valid d hv hne with ⟨pruned, hp, hpv, -, -⟩
  rcases minimizeCore_valid pruned hpv with ⟨m, hm, hmv⟩
  refine ⟨m, ?_, hmv⟩
  unfold minimize
  rw [hp]
  exact hm

/-- **C9, counterexample**: the automaton `e1` passes validation, but
`minimize` raises an uncaught `KeyError` on it and returns no automaton at
all, let alone a valid one. -/
theorem claim9_counterexample :
    (is_valid e1).1 = true ∧ remove_unreachable_states e1 = some e1p ∧
      minimize e1 = none := by decide

/-- Witness for the amended C9 at the spec's concrete automaton. -/
theorem claim9_witness :
    ∃ m, minimize exA = some m ∧ (is_valid m).1 = true :=
  claim9_minimize_output_valid exA (by decide) (by decide)

/-- The pruned form of the spec's concrete automaton (`D` removed). -/
def prunedExA : DFA :=
  ⟨["A", "B", "C", "E", "F", "G", "H"], ["0", "1"],
   [("A", [("0", "B"), ("1", "F")]),
    ("B", [("0", "G"), ("1", "C")]),
    ("F", [("0", "C"), ("1", "G")]),
    ("G", [("0", "G"), ("1", "E")]),
    ("C", [("0", "A"), ("1", "C")]),
    ("E", [("0", "H"), ("1", "F")]),
    ("H", [("0", "G"), ("1", "C")])],
   "A", ["C"]⟩

/-! ### C4: which violation `is_valid` reports -/

/-- The validation violations, carrying the data their messages report.  The
empty-states and final-states checks carry nothing: their messages are
fixed. -/
inductive Violation where
  | emptyStates : Violation
  | startNotIn : String → Violation
  | finalNotSub : Violation
  | missingState : String → Violation
  | missingSym : String → String → Violation
  | badTarget : String → String → String → Violation
  deriving DecidableEq

/-- The message `is_valid` produces for each violation. -/
def renderViolation : Violation → String
  | .emptyStates => msgEmptyStates
  | .startNotIn s => msgStartNotIn s
  | .finalNotSub => msgFinalNotSub
  | .missingState s => msgMissingState s
  | .missingSym s sym => msgMissingSym s sym
  | .badTarget s sym t => msgBadTarget s sym t

/-- Modelled from the spec: the first per-symbol violation of one state, in
the alphabet's iteration order — a missing `(state, symbol)` entry or a
target outside the state set. -/
def firstSymViolation (d : DFA) (s : String) (m : SMap) : List String → Option Violation
  | [] => none
  | sym :: rest =>
    match assoc m sym with
    | none => some (.missingSym s sym)
    | some t =>
      if t ∈ d.states then firstSymViolation d s m rest else some (.badTarget s sym t)

/-- Modelled from the spec: the first per-state violation, in the states'
iteration order. -/
def firstStateViolation (d : DFA) : List String → Option Violation
  | [] => none
  | s :: rest =>
    match assoc d.transitions s with
    | none => some (.missingState s)
    | some m =>
      match firstSymViolation d s m d.alphabet with
      | some v => some v
      | none => firstStateViolation d rest

/-- Modelled from the spec: the first violation over all checks, in check
order — empty states, start state, final states, then the per-state scan. -/
def firstViolation (d : DFA) : Option Violation :=
  if d.states.isEmpty then some .emptyStates
  else if d.start_state ∈ d.states then
    if d.final_states.all (fun t => decide (t ∈ d.states)) then firstStateViolation d d.states
    else some .finalNotSub
  else some (.startNotIn d.start_state)

theorem checkSymbols_eq_render (d : DFA) (s : String) (m : SMap) :
    ∀ l, checkSymbols d s m l = (firstSymViolation d s m l).map renderViolation := by
  intro l
  induction l with
  | nil => rfl
  | cons sym rest ih =>
    simp only [checkSymbols, firstSymViolation]
    cases assoc m sym with
    | none => rfl
    | some t =>
      by_cases ht : t ∈ d.states
      · simp only [ht, if_true, ih]
      · simp only [ht, if_false]
        rfl

theorem checkStates_eq_render (d : DFA) :
    ∀ l, checkStates d l = (firstStateViolation d l).map renderViolation := by
  intro l
  induction l with
  | nil => rfl
  | cons s rest ih =>
    simp only [checkStates, firstStateViolation]
    cases assoc d.transitions s with
    | none => rfl
    | some m =>
      dsimp only
      cases hfs : firstSymViolation d s m d.alphabet with
      | none =>
        rw [checkSymbols_eq_render, hfs]
        simpa using ih
      | some v =>
        rw [checkSymbols_eq_render, hfs]
        rfl

/-- **C4 (amended)**: `is_valid` reports the message of the *first*
violation encountered when iterating the automaton's states, then its
alphabet symbols, in their given (arbitrary set-iteration) order; per-state
messages name the offending state, symbol or target, while the empty-states
and final-states checks return fixed messages.  (The counterexample forces
dropping "lexicographic order", "same on every run", and "always names the
offending state".) -/
theorem claim4_first_violation_reported (d : DFA) :
    is_valid d = (match firstViolation d with
      | some v => (false, renderViolation v)
      | none => (true, msgOk)) ∧
    ((is_valid d).1 = true ↔ firstViolation d = none) := by
  have hmain : is_valid d = (match firstViolation d with
      | some v => (false, renderViolation v)
      | none => (true, msgOk)) := by
    unfold is_valid firstViolation
    by_cases hne : d.states.isEmpty
    · rw [if_pos hne, if_pos hne]
      rfl
    · rw [if_neg hne, if_neg hne]
      by_cases hst : d.start_state ∈ d.states
      · rw [if_pos hst, if_pos hst]
        by_cases hfin : d.final_states.all (fun t => decide (t ∈ d.states)) = true
        · rw [if_pos hfin, if_pos hfin, checkStates_eq_render]
          cases firstStateViolation d d.states with
          | none => rfl
          | some v => rfl
        · rw [if_neg hfin, if_neg hfin]
          rfl
      · rw [if_neg hst, if_neg hst]
        rfl
  refine ⟨hmain, ?_⟩
  rw [hmain]
  cases firstViolation d with
  | none => simp
  | some v => simp

/-- **C4, counterexample**: `e4a` and `e4b` carry the same state set,
alphabet, transitions, start and final states — only the set-iteration
order differs — yet `is_valid` reports different reasons, and on `e4b` the
reported state is `b` although `a` also violates and `a` sorts first; on
`e4c` the only violation is a final state `t` outside the state set and the
reason is the fixed subset message, naming nothing. -/
theorem claim4_counterexample :
    (e4a.states.toFinset = e4b.states.toFinset ∧ e4a.alphabet = e4b.alphabet ∧
      e4a.transitions = e4b.transitions ∧ e4a.start_state = e4b.start_state ∧
      e4a.final_states = e4b.final_states) ∧
    is_valid e4a ≠ is_valid e4b ∧
    is_valid e4a = (false, msgMissingState "a") ∧
    is_valid e4b = (false, msgMissingState "b") ∧
    strLt "a" "b" = true ∧
    is_valid e4c = (false, msgFinalNotSub) := by decide

/-- Witness for C6 at the spec's concrete automaton. -/
theorem claim6_witness :
    (∀ T res, onePass prunedExA (sortStrings prunedExA.states.dedup) T = some res →
      (res.2 = false ∧ res.1 = T) ∨
        countMarks (sortStrings prunedExA.states.dedup) T <
          countMarks (sortStrings prunedExA.states.dedup) res.1) ∧
    (∀ T T', closure prunedExA (sortStrings prunedExA.states.dedup)
        ((sortStrings prunedExA.states.dedup).length *
          (sortStrings prunedExA.states.dedup).length + 1) T = some T' →
      onePass prunedExA (sortStrings prunedExA.states.dedup) T' = some (T', false)) :=
  claim6_closure_terminates exA prunedExA (by decide) (by decide)

/-- Witness for C3 at the spec's concrete automaton, with the table the
closure loop actually computes. -/
theorem claim3_witness :
    (∀ p ∈ buildPartitions (sortStrings prunedExA.states.dedup)
        ((closure prunedExA (sortStrings prunedExA.states.dedup)
          ((sortStrings prunedExA.states.dedup).length *
            (sortStrings prunedExA.states.dedup).length + 1)
          (baseTable (sortStrings prunedExA.states.dedup) prunedExA.final_states)).getD
          (fun _ _ => false)), p ≠ []) ∧
    (∀ s, (∃ p ∈ buildPartitions (sortStrings prunedExA.states.dedup)
        ((closure prunedExA (sortStrings prunedExA.states.dedup)
          ((sortStrings prunedExA.states.dedup).length *
            (sortStrings prunedExA.states.dedup).length + 1)
          (baseTable (sortStrings prunedExA.states.dedup) prunedExA.final_states)).getD
          (fun _ _ => false)), s ∈ p) ↔ s ∈ prunedExA.states) ∧
    (∀ k1 k2 s,
      k1 < (buildPartitions (sortStrings prunedExA.states.dedup)
        ((closure prunedExA (sortStrings prunedExA.states.dedup)
          ((sortStrings prunedExA.states.dedup).length *
            (sortStrings prunedExA.states.dedup).length + 1)
          (baseTable (sortStrings prunedExA.states.dedup) prunedExA.final_states)).getD
          (fun _ _ => false))).length →
      k2 < (buildPartitions (sortStrings prunedExA.states.dedup)
        ((closure prunedExA (sortStrings prunedExA.states.dedup)
          ((sortStrings prunedExA.states.dedup).length *
            (sortStrings prunedExA.states.dedup).length + 1)
          (baseTable (sortStrings prunedExA.states.dedup) prunedExA.final_states)).getD
          (fun _ _ => false))).length →
      s ∈ (buildPartitions (sortStrings prunedExA.states.dedup)
        ((closure prunedExA (sortStrings prunedExA.states.dedup)
          ((sortStrings prunedExA.states.dedup).length *
            (sortStrings prunedExA.states.dedup).length + 1)
          (baseTable (sortStrings prunedExA.states.dedup) prunedExA.final_states)).getD
          (fun _ _ => false))).getD k1 [] →
      s ∈ (buildPartitions (sortStrings prunedExA.states.dedup)
        ((closure prunedExA (sortStrings prunedExA.states.dedup)
          ((sortStrings prunedExA.states.dedup).length *
            (sortStrings prunedExA.states.dedup).length + 1)
          (baseTable (sortStrings prunedExA.states.dedup) prunedExA.final_states)).getD
          (fun _ _ => false))).getD k2 [] → k1 = k2) :=
  claim3_partition_blocks exA prunedExA
    ((closure prunedExA (sortStrings prunedExA.states.dedup)
      ((sortStrings prunedExA.states.dedup).length *
        (sortStrings prunedExA.states.dedup).length + 1)
      (baseTable (sortStrings prunedExA.states.dedup) prunedExA.final_states)).getD
      (fun _ _ => false))
    (by decide)
    (opt_getD_eq_some _ _ (by decide))

end DFAmin
